import Mathlib

/-!
Verification development for the Telegram address-scraper bot (src/bot.js).

Texts and stored strings are modelled as `Str := List Char`.  JavaScript's
`String.prototype.length` counts UTF-16 code units, so sizes are measured by
`utf16Len`.  JS `Set` and `Map` preserve insertion order and are modelled by
lists, respectively association lists, with first-match lookup, replace-in-place
update and append-on-new-key insertion.  The process-wide `memoryStore`
(chatId -> chat state) is an association list keyed by `Int`.
-/

namespace TgScraper

abbrev Str := List Char

/-- JS regex word character class `\w` = `[A-Za-z0-9_]`. -/
def isWordChar (c : Char) : Bool :=
  (('a' ≤ c) && (c ≤ 'z')) || (('A' ≤ c) && (c ≤ 'Z')) ||
  (('0' ≤ c) && (c ≤ '9')) || (c = '_')

/-- Hexadecimal digit, as in the character class `[a-fA-F0-9]` of `ethRegex`. -/
def isHexChar (c : Char) : Bool :=
  (('a' ≤ c) && (c ≤ 'f')) || (('A' ≤ c) && (c ≤ 'F')) ||
  (('0' ≤ c) && (c ≤ '9'))

/-- Character class `[a-z0-9-]` of `ensRegex`, taken case-insensitively
because `ensRegex` carries the `i` flag. -/
def isEnsChar (c : Char) : Bool :=
  (('a' ≤ c) && (c ≤ 'z')) || (('A' ≤ c) && (c ≤ 'Z')) ||
  (('0' ≤ c) && (c ≤ '9')) || (c = '-')

/-- JS word boundary `\b` at a position whose current character is `c` and
whose preceding character is `prev` (`none` at the start of the string):
the boundary holds when wordness changes across the position. -/
def boundaryAt (prev : Option Char) (c : Char) : Bool :=
  (match prev with
   | none => false
   | some p => isWordChar p) != isWordChar c

/-- Word boundary after the end of a candidate match: the rest of the text is
empty or starts with a non-word character (the matched text ends in a word
character for both patterns of the source). -/
def afterBoundary (t : Str) : Bool :=
  match t with
  | [] => true
  | c :: _ => !isWordChar c

/-- ASCII lower-casing of a string, modelling `String.prototype.toLowerCase`
on the ASCII data handled by the bot. -/
def lowerStr (s : Str) : Str := s.map Char.toLower

/-- `rest.take 40` is a run of exactly 40 hex digits. -/
def hexRun40 (rest : Str) : Bool :=
  ((rest.take 40).length = 40) && (rest.take 40).all isHexChar

/-- The body of `ethRegex = /\b0x[a-fA-F0-9]{40}\b/g` matches at the head of
`cs`: a literal lowercase `0x` (the regex has no `i` flag), exactly 40 hex
digits, then a word boundary. -/
def ethShape (cs : Str) : Bool :=
  match cs with
  | c0 :: c1 :: rest =>
      (c0 = '0') && (c1 = 'x') && hexRun40 rest && afterBoundary (rest.drop 40)
  | _ => false

/-- A full `ethRegex` occurrence at the head of `cs`, with `prev` the character
before the current position: leading word boundary plus the pattern body. -/
def ethOccB (prev : Option Char) (cs : Str) : Bool :=
  match cs with
  | [] => false
  | c :: _ => boundaryAt prev c && ethShape cs

/-- Global scan of `text.match(ethRegex)`: the JS `g`-flag engine looks for the
first position where the pattern matches, records the matched substring, and
resumes searching at the end of the match (`lastIndex`).  The first argument
is recursion fuel (each step consumes at least one character, so fuel equal to
the text length suffices); structural recursion on the fuel keeps the scanner
computable by the kernel. -/
def ethScan : Nat → Option Char → Str → List Str
  | 0, _, _ => []
  | _, _, [] => []
  | fuel + 1, prev, c :: cs =>
    if ethOccB prev (c :: cs) then
      ((c :: cs).take 42) :: ethScan fuel (some (((c :: cs).take 42).getLastD c)) (cs.drop 41)
    else
      ethScan fuel (some c) cs

/-- `text.match(ethRegex) || []` from `handleText` (src/bot.js line 435). -/
def ethMatches (text : Str) : List Str := ethScan text.length none text

/-- Literal `\.eth` of `ensRegex` matches at the head of `t` (the `i` flag
makes `eth` case-insensitive), followed by a word boundary. -/
def dotEthAt (t : Str) : Bool :=
  match t with
  | '.' :: c1 :: c2 :: c3 :: rest =>
      (c1.toLower = 'e') && (c2.toLower = 't') && (c3.toLower = 'h') &&
      afterBoundary rest
  | _ => false

/-- Length of the maximal run of `[a-z0-9-]` characters at the head. -/
def ensRunLen (cs : Str) : Nat := (cs.takeWhile isEnsChar).length

/-- Backtracking search for the end of an `ensRegex` match.  `e` is the offset
of the end of the current label run inside `cs`.  The greedy star
`(?:\.[a-z0-9-]+)*` consumes as many dot-separated label runs as possible and
backtracks, so the engine prefers the furthest end at which the literal
`\.eth` (plus trailing `\b`) still matches; `fuel` bounds the recursion. -/
def ensTailLen (cs : Str) : Nat → Nat → Option Nat
  | 0, _ => none
  | fuel + 1, e =>
    let deeper : Option Nat :=
      match cs.drop e with
      | '.' :: rest =>
          if ensRunLen rest = 0 then none
          else ensTailLen cs fuel (e + 1 + ensRunLen rest)
      | _ => none
    match deeper with
    | some l => some l
    | none => if dotEthAt (cs.drop e) then some (e + 4) else none

/-- Length of the `ensRegex` body match at the head of `cs` (leading `\b` is
checked by the scanner), or `none`. -/
def ensMatchLen (cs : Str) : Option Nat :=
  if ensRunLen cs = 0 then none
  else ensTailLen cs (cs.length + 1) (ensRunLen cs)

/-- Global scan of `text.match(ensRegex)` with
`ensRegex = /\b[a-z0-9-]+(?:\.[a-z0-9-]+)*\.eth\b/gi` (src/bot.js line 226).
Fuel-indexed like `ethScan`. -/
def ensScan : Nat → Option Char → Str → List Str
  | 0, _, _ => []
  | _, _, [] => []
  | fuel + 1, prev, c :: cs =>
    if boundaryAt prev c then
      match ensMatchLen (c :: cs) with
      | some l =>
          ((c :: cs).take l) :: ensScan fuel (some (((c :: cs).take l).getLastD c)) (cs.drop (l - 1))
      | none => ensScan fuel (some c) cs
    else
      ensScan fuel (some c) cs

/-- `text.match(ensRegex) || []` from `handleText` (src/bot.js line 439). -/
def ensMatches (text : Str) : List Str := ensScan text.length none text

/-! ### JS collections: `Set`, `Map`, and the process-wide `memoryStore` -/

/-- First-match lookup in an association list, modelling `Map.get`/`Map.has`
(JS map keys are unique; lists we build never repeat a key). -/
def alistLookup {α β : Type} [DecidableEq α] : List (α × β) → α → Option β
  | [], _ => none
  | p :: m, k => if p.1 = k then some p.2 else alistLookup m k

/-- `Map.set`: update the value in place if the key exists (JS maps keep the
original insertion position), otherwise append the new pair. -/
def alistSet {α β : Type} [DecidableEq α] : List (α × β) → α → β → List (α × β)
  | [], k, v => [(k, v)]
  | p :: m, k, v => if p.1 = k then (k, v) :: m else p :: alistSet m k v

/-- `Set.add`: append if the element is new, keeping insertion order. -/
def setAdd (s : List Str) (x : Str) : List Str :=
  if x ∈ s then s else s ++ [x]

/-- Per-chat state: `{ watching, ethSet, ensMap }` (src/bot.js line 229). -/
structure ChatState where
  watching : Bool
  ethSet : List Str
  ensMap : List (Str × Option Str)
deriving DecidableEq

/-- Fresh default state created by `ensureChat` (src/bot.js lines 234-238). -/
def newChat : ChatState := { watching := false, ethSet := [], ensMap := [] }

/-- The process-wide `memoryStore : Map<chatId, ChatState>`. -/
abbrev Store := List (Int × ChatState)

/-- `ensureChat(chatId)` (src/bot.js lines 232-241): create a fresh default
state if the chat is unknown.  The model returns the updated registry. -/
def ensureChat (store : Store) (chatId : Int) : Store :=
  if (alistLookup store chatId).isSome then store else store ++ [(chatId, newChat)]

/-- The chat state `ensureChat` hands to callers. -/
def chatOf (store : Store) (chatId : Int) : ChatState :=
  (alistLookup (ensureChat store chatId) chatId).getD newChat

/-- One iteration of the ETH loop of src/bot.js line 436:
`chatState.ethSet.add(m.toLowerCase())`. -/
def ethStep (s : List Str) (m : Str) : List Str := setAdd s (lowerStr m)

/-- One iteration of the ENS loop of src/bot.js lines 440-455: lower-case the
raw match; if the name is already cached do nothing, otherwise insert
`name -> null` synchronously and launch a detached resolution task (the name
is appended to the second, instrumentation component). -/
def ensStep (acc : List (Str × Option Str) × List Str) (raw : Str) :
    List (Str × Option Str) × List Str :=
  let ensName := lowerStr raw
  if (alistLookup acc.1 ensName).isSome then acc
  else (acc.1 ++ [(ensName, (none : Option Str))], acc.2 ++ [ensName])

/-- `handleText(ctx, text)` (src/bot.js lines 429-460).  Returns the updated
registry together with the list of ENS names for which a fire-and-forget
resolution task was launched in this call (the detached async block at
lines 446-453); the source launches a task exactly when the name was not yet
in `ensMap`, after synchronously inserting `name -> null`. -/
def handleText (store : Store) (chatId : Int) (text : Str) : Store × List Str :=
  let store1 := ensureChat store chatId
  let st := (alistLookup store1 chatId).getD newChat
  if st.watching = false then (store1, [])
  else
    let eth1 := (ethMatches text).foldl ethStep st.ethSet
    let ensF := (ensMatches text).foldl ensStep (st.ensMap, ([] : List Str))
    (alistSet store1 chatId { st with ethSet := eth1, ensMap := ensF.1 }, ensF.2)

/-- Completion of one detached resolution task (src/bot.js lines 447-452):
when the backend returns a truthy result, `ensMap.set(ensName, resolved)`;
a `null`/falsy result or a thrown error leaves the map untouched. -/
def completeStore (store : Store) (chatId : Int) (ensName : Str) (result : Option Str) : Store :=
  match result with
  | none => store
  | some a =>
    if a = [] then store
    else
      match alistLookup store chatId with
      | some st => alistSet store chatId { st with ensMap := alistSet st.ensMap ensName (some a) }
      | none => store

/-! ### Export formatter: `handleMakeList` -/

/-- JS `String.prototype.length` counts UTF-16 code units: characters above
`U+FFFF` (such as the clipboard emoji in the header) count twice. -/
def utf16Len (s : Str) : Nat :=
  s.foldl (fun n c => n + (if (0x10000 : UInt32) ≤ c.val then 2 else 1)) 0

/-- Decimal rendering of a count, as in JS template-string interpolation. -/
def natStr (n : Nat) : Str := Nat.toDigits 10 n

/-- Lexicographic comparison by code point; `a.localeCompare(b)` on the
lower-cased hex addresses handled here orders exactly this way. -/
def lexLE : Str → Str → Bool
  | [], _ => true
  | _ :: _, [] => false
  | a :: as, b :: bs =>
    if a.val < b.val then true
    else if b.val < a.val then false
    else lexLE as bs

/-- Stable insertion into a sorted list (JS `Array.prototype.sort` is stable). -/
def insertLE {α : Type} (le : α → α → Bool) (x : α) : List α → List α
  | [] => [x]
  | y :: ys => if le x y then x :: y :: ys else y :: insertLE le x ys

/-- Stable sort modelling `addresses.sort((a, b) => ...)`. -/
def sortIns {α : Type} (le : α → α → Bool) : List α → List α
  | [] => []
  | x :: xs => insertLE le x (sortIns le xs)

/-- The comparator of src/bot.js line 354:
`(a, b) => a.toLowerCase().localeCompare(b.toLowerCase())`. -/
def ciLE (a b : Str) : Bool := lexLE (lowerStr a) (lowerStr b)

/-- JS truthiness of the nullable resolved value (`if (maybeResolved)`):
`null` and the empty string are falsy. -/
def jsTruthy (v : Option Str) : Bool :=
  match v with
  | none => false
  | some s => !s.isEmpty

/-- One iteration of the ENS loop of src/bot.js lines 334-338:
`if (maybeResolved) addressSet.add(maybeResolved.toLowerCase())`. -/
def ensAccStep (acc : List Str) (p : Str × Option Str) : List Str :=
  if jsTruthy p.2 then setAdd acc (lowerStr (p.2.getD [])) else acc

/-- The `addressSet` built by `handleMakeList` (src/bot.js lines 326-338):
every `ethSet` member lower-cased, then the lower-cased resolved address of
every ENS entry with a truthy value; `Set` iteration order is insertion
order. -/
def buildAddressSet (st : ChatState) : List Str :=
  st.ensMap.foldl ensAccStep (st.ethSet.foldl ethStep [])

/-- Optional EIP-55 checksumming (src/bot.js lines 344-352): when the external
`getAddress` capability is present, map every address through it and fall back
to the original on a thrown error (modelled by `none`). -/
def checksummedAddresses (getAddress : Option (Str → Option Str)) (st : ChatState) : List Str :=
  match getAddress with
  | some f => (buildAddressSet st).map (fun addr =>
      match f addr with
      | some c => c
      | none => addr)
  | none => buildAddressSet st

/-- The sorted address list of src/bot.js line 354. -/
def sortedAddresses (getAddress : Option (Str → Option Str)) (st : ChatState) : List Str :=
  sortIns ciLE (checksummedAddresses getAddress st)

/-- The header of src/bot.js line 368 (with the clipboard emoji). -/
def makeHeader (chatName : Str) (ethCount ensResolvedCount total : Nat) : Str :=
  "📋 Collected Addresses from ".data ++ chatName ++ "\n(".data ++
  natStr ethCount ++ " ETH + ".data ++ natStr ensResolvedCount ++
  " resolved ENS = ".data ++ natStr total ++ " unique)\n\n".data

/-- `addresses.join('\n')`. -/
def joinNL : List Str → Str
  | [] => []
  | [a] => a
  | a :: rest => a ++ '\n' :: joinNL rest

/-- One iteration of the chunking loop of src/bot.js lines 382-389: when
adding the line `addr + '\n'` would push `currentChunk` past 4096 UTF-16
units, emit the chunk and start a new one with that line, else append. -/
def chunkStep (acc : List Str × Str) (addr : Str) : List Str × Str :=
  if 4096 < utf16Len (acc.2 ++ addr ++ ['\n']) then (acc.1 ++ [acc.2], addr ++ ['\n'])
  else (acc.1, acc.2 ++ addr ++ ['\n'])

/-- The chunking loop of src/bot.js lines 378-390: grow `currentChunk`
(initially the header) one address line at a time; finally emit the trailing
nonempty chunk. -/
def makeChunks (header : Str) (addresses : List Str) : List Str :=
  let acc := addresses.foldl chunkStep (([] : List Str), header)
  if acc.2.isEmpty then acc.1 else acc.1 ++ [acc.2]

/-- Numeric mirror of `chunkStep`, tracking only UTF-16 sizes (the loop's
branching depends only on sizes).  Used to compute chunk sizes without
materializing multi-thousand-character lists in the kernel. -/
def numChunkStep (acc : List Nat × Nat) (l : Nat) : List Nat × Nat :=
  if 4096 < acc.2 + l then (acc.1 ++ [acc.2], l) else (acc.1, acc.2 + l)

/-- Numeric mirror of `makeChunks`: the sizes of the produced chunks, given
the header size and the line sizes (address size + 1 for the newline). -/
def numChunks (h : Nat) (ls : List Nat) : List Nat :=
  let acc := ls.foldl numChunkStep (([] : List Nat), h)
  if acc.2 = 0 then acc.1 else acc.1 ++ [acc.2]

/-- Where a produced message goes: a direct message to the owner
(`ctx.telegram.sendMessage(ownerTelegramId, ...)`) or a reply in the
originating chat (`ctx.reply(...)`). -/
inductive Dest where
  | ownerDM
  | chatReply
deriving DecidableEq

/-- `handleMakeList(ctx)` (src/bot.js lines 315-402) as invoked by the owner
(or a channel post), with delivery succeeding.  `getAddress` is the optional
external checksum capability; `chatName` is `ctx.chat.title || Chat <id>`.
Returns the updated registry (only `ensureChat` touches it) and the emitted
messages in order. -/
def handleMakeList (getAddress : Option (Str → Option Str)) (chatName : Str)
    (store : Store) (chatId : Int) : Store × List (Dest × Str) :=
  let store1 := ensureChat store chatId
  let st := (alistLookup store1 chatId).getD newChat
  let addresses := sortedAddresses getAddress st
  if addresses.length = 0 then
    (store1, [(Dest.chatReply, "No addresses collected yet.".data)])
  else
    let ethCount := st.ethSet.length
    let ensResolvedCount := (st.ensMap.filter (fun p => p.2.isSome)).length
    let header := makeHeader chatName ethCount ensResolvedCount addresses.length
    let content := header ++ joinNL addresses
    let sent :=
      if utf16Len content ≤ 4096 then [(Dest.ownerDM, content)]
      else
        let chunks := makeChunks header addresses
        (List.range chunks.length).map (fun i =>
          (Dest.ownerDM,
            "Part ".data ++ natStr (i + 1) ++ '/' :: natStr chunks.length ++ ":\n\n".data ++
            (chunks.getD i [])))
    (store1, sent ++ [(Dest.chatReply, "Sent you a DM with the results.".data)])

/-! ### Command dispatch: channel posts versus regular messages -/

/-- JS whitespace as removed by `String.prototype.trim` (ASCII portion). -/
def isJsSpace (c : Char) : Bool :=
  (c = ' ') || (c = '\t') || (c = '\n') || (c = '\x0d') || (c = '\x0c') || (c = '\x0b')

/-- `text.trim()`. -/
def jsTrim (s : Str) : Str :=
  (((s.dropWhile isJsSpace).reverse).dropWhile isJsSpace).reverse

/-- `isCmd(text, cmdName)` (src/bot.js lines 255-257):
`text.trim().startsWith('/' + cmdName)`. -/
def isCmd (text cmdName : Str) : Bool :=
  List.isPrefixOf ('/' :: cmdName) (jsTrim text)

/-- The four commands registered at src/bot.js lines 423-426. -/
inductive Cmd where
  | help
  | whoami
  | status
  | makelist
deriving DecidableEq

def cmdName : Cmd → Str
  | .help => ['h', 'e', 'l', 'p']
  | .whoami => ['w', 'h', 'o', 'a', 'm', 'i']
  | .status => ['s', 't', 'a', 't', 'u', 's']
  | .makelist => ['m', 'a', 'k', 'e', 'l', 'i', 's', 't']

/-- Command recognition on the channel-post path (src/bot.js lines 475-478):
the four `isCmd` tests in source order. -/
def channelDispatch (text : Str) : Option Cmd :=
  if isCmd text (cmdName .help) then some .help
  else if isCmd text (cmdName .whoami) then some .whoami
  else if isCmd text (cmdName .status) then some .status
  else if isCmd text (cmdName .makelist) then some .makelist
  else none

/-- Modelled from the spec: the messaging transport's command recognition for
regular messages (`bot.command(...)` registrations, whose matching lives in the
external transport library, not in src/): a message text is a command
invocation when it begins with `/`; the command token is everything after the
`/` up to the first whitespace or `@` (bot-mention suffix). -/
def msgCommandToken (text : Str) : Option Str :=
  match text with
  | [] => none
  | c :: rest =>
    if c = '/' then some (rest.takeWhile (fun d => !isJsSpace d && !(d = '@'))) else none

/-- Modelled from the spec: which registered command a regular message
dispatches to — the extracted token must equal the registered name exactly. -/
def msgDispatch (text : Str) : Option Cmd :=
  match msgCommandToken text with
  | some t =>
    if t = cmdName .help then some .help
    else if t = cmdName .whoami then some .whoami
    else if t = cmdName .status then some .status
    else if t = cmdName .makelist then some .makelist
    else none
  | none => none

/-- Store effect and launched resolution tasks of one `channel_post` event
(src/bot.js lines 469-482): a recognized command runs its handler (`/status`
and `/makelist` call `ensureChat`; `ownerOnly` is `true` for channel posts),
otherwise the text goes to `handleText`. -/
def channelPostStep (store : Store) (chatId : Int) (text : Str) : Store × List Str :=
  match channelDispatch text with
  | some .help => (store, [])
  | some .whoami => (store, [])
  | some .status => (ensureChat store chatId, [])
  | some .makelist => (ensureChat store chatId, [])
  | none => handleText store chatId text

/-! ### Whole-system transitions (for the name-lifecycle invariant) -/

/-- Events that can touch the registry over the process lifetime:
regular text messages, channel posts, the auto-watch membership event
(src/bot.js lines 408-420), the owner commands that call `ensureChat`, and the
completion of a detached resolution task. -/
inductive Event where
  | msg (chatId : Int) (text : Str)
  | chanPost (chatId : Int) (text : Str)
  | autoWatch (chatId : Int)
  | complete (chatId : Int) (ensName : Str) (result : Option Str)

/-- System state: the registry plus the launched-but-unfinished detached
resolution tasks. -/
structure Sys where
  store : Store
  pending : List (Int × Str)

def sysInit : Sys := { store := [], pending := [] }

/-- Effect of one inbound text on the system, given the command-dispatch
outcome: a matched command handler consumes the message (`/status` and
`/makelist` call `ensureChat`, `/help` and `/whoami` only reply), otherwise
the text goes to the collector `handleText` and the launched tasks are added
to `pending`. -/
def textEffect (sys : Sys) (chatId : Int) (t : Str) (d : Option Cmd) :
    Sys × List (Int × Str) :=
  match d with
  | some .help => (sys, [])
  | some .whoami => (sys, [])
  | some .status => ({ sys with store := ensureChat sys.store chatId }, [])
  | some .makelist => ({ sys with store := ensureChat sys.store chatId }, [])
  | none =>
    let r := handleText sys.store chatId t
    let fp := r.2.map (fun n => (chatId, n))
    (⟨r.1, sys.pending ++ fp⟩, fp)

/-- One event step, returning also the resolution tasks launched by the step.
A regular message goes through the transport's command matching, a channel
post through the `isCmd` chain; a `complete` event is only meaningful for a
launched task. -/
def stepFired (sys : Sys) (e : Event) : Sys × List (Int × Str) :=
  match e with
  | .msg chatId t => textEffect sys chatId t (msgDispatch t)
  | .chanPost chatId t => textEffect sys chatId t (channelDispatch t)
  | .autoWatch chatId =>
    let s1 := ensureChat sys.store chatId
    let st := (alistLookup s1 chatId).getD newChat
    ({ sys with store := alistSet s1 chatId { st with watching := true } }, [])
  | .complete chatId n r =>
    if (chatId, n) ∈ sys.pending then
      (⟨completeStore sys.store chatId n r, sys.pending.erase (chatId, n)⟩, [])
    else (sys, [])

def stepSys (sys : Sys) (e : Event) : Sys := (stepFired sys e).1

def runSys (sys : Sys) (es : List Event) : Sys := es.foldl stepSys sys

/-- All resolution tasks launched along a trace, in order. -/
def firesOf (sys : Sys) : List Event → List (Int × Str)
  | [] => []
  | e :: es => (stepFired sys e).2 ++ firesOf (stepSys sys e) es

/-- The stored outcome of a name in a chat: `none` if the chat or the name is
absent, `some v` with `v` the nullable resolved address otherwise. -/
def nameVal (store : Store) (chatId : Int) (n : Str) : Option (Option Str) :=
  match alistLookup store chatId with
  | some st => alistLookup st.ensMap n
  | none => none

/-- System invariant tying the pending-task list to the name cache: no task is
duplicated, and every launched-but-unfinished task's name is cached with a
`null` value (the synchronous insert happens before the task is launched, and
only the task's completion can replace the `null`). -/
def SysInv (sys : Sys) : Prop :=
  sys.pending.Nodup ∧ ∀ p ∈ sys.pending, nameVal sys.store p.1 p.2 = some none

/-! ### Specification-side characterization of the address extractor (C4) -/

/-- Specification-side scanner: examine every position in turn and record an
occurrence wherever the word-boundary-delimited pattern matches.  Unlike
`ethScan` it does not skip past a recorded match. -/
def specScanAux : Option Char → Str → List Str
  | _, [] => []
  | prev, c :: cs =>
    (if ethOccB prev (c :: cs) then [(c :: cs).take 42] else []) ++ specScanAux (some c) cs

/-- The character preceding position `i` of `s`, with `prev` standing for the
character before position 0. -/
def prevAtP (prev : Option Char) (s : Str) (i : Nat) : Option Char :=
  if i = 0 then prev else s.get? (i - 1)

/-- Specification-side description of the extractor output: the substrings of
length 42 at exactly those positions where a word-boundary-delimited
`0x` + 40-hex-digits occurrence sits, in positional order. -/
def ethOccurrences (s : Str) : List Str :=
  (List.range s.length).filterMap fun i =>
    if ethOccB (prevAtP none s i) (s.drop i) then some ((s.drop i).take 42) else none

/-! ### Concrete failing input for the chunk-size bound (C1) -/

/-- The `i`-th of a family of distinct, already-lowercase, lexicographically
increasing 42-character addresses: `0x`, the three decimal digits of
`100 + i`, then 37 `0`s. -/
def mkAddr (i : Nat) : Str :=
  '0' :: 'x' :: (Nat.toDigits 10 (100 + i) ++ List.replicate 37 '0')

/-- A watching chat that has collected 100 distinct addresses. -/
def overflowState : ChatState :=
  { watching := true, ethSet := (List.range 100).map mkAddr, ensMap := [] }

/-- Registry holding only the overflowing chat (id 7). -/
def overflowStore : Store := [(7, overflowState)]

/-- A 20-character chat title, sized so that the first chunk built by
`handleMakeList` lands at 4089 UTF-16 units (within the 4096 budget) and the
prepended `Part 1/2:` line pushes the delivered message over the limit. -/
def overflowChatName : Str := List.replicate 20 'A'

/-! ## Basic lemmas about the collection model -/

section AlistLemmas

variable {α β : Type} [DecidableEq α]

theorem alistLookup_alistSet_self (m : List (α × β)) (k : α) (v : β) :
    alistLookup (alistSet m k v) k = some v := by
  induction m with
  | nil => simp [alistSet, alistLookup]
  | cons p m ih =>
    by_cases h : p.1 = k
    · simp [alistSet, h, alistLookup]
    · simp [alistSet, h, alistLookup, ih]

theorem alistLookup_alistSet_ne (m : List (α × β)) (k k' : α) (v : β) (h : k' ≠ k) :
    alistLookup (alistSet m k v) k' = alistLookup m k' := by
  have hkk : ¬(k = k') := fun e => h e.symm
  induction m with
  | nil => simp [alistSet, alistLookup, hkk]
  | cons p m ih =>
    by_cases hp : p.1 = k
    · have hp' : ¬(p.1 = k') := fun e => hkk (hp.symm.trans e)
      simp [alistSet, hp, alistLookup, hkk, hp']
    · by_cases hp' : p.1 = k'
      · rw [show alistSet (p :: m) k v = p :: alistSet m k v from by simp [alistSet, hp]]
        simp [alistLookup, hp']
      · simp [alistSet, hp, alistLookup, hp', ih]

theorem alistSet_self (m : List (α × β)) (k : α) (v : β)
    (h : alistLookup m k = some v) : alistSet m k v = m := by
  induction m with
  | nil => simp [alistLookup] at h
  | cons p m ih =>
    by_cases hp : p.1 = k
    · simp only [alistLookup, if_pos hp] at h
      have hv : p.2 = v := Option.some_inj.mp h
      have hpv : p = (k, v) := Prod.ext hp hv
      simp [alistSet, if_pos hp, hpv]
    · simp only [alistLookup, if_neg hp] at h
      simp [alistSet, if_neg hp, ih h]

theorem alistLookup_append_some (m₁ m₂ : List (α × β)) (k : α) (v : β)
    (h : alistLookup m₁ k = some v) : alistLookup (m₁ ++ m₂) k = some v := by
  induction m₁ with
  | nil => simp [alistLookup] at h
  | cons p m ih =>
    by_cases hp : p.1 = k
    · simp_all [alistLookup]
    · simp_all [alistLookup]

theorem alistLookup_append_none (m₁ m₂ : List (α × β)) (k : α)
    (h : alistLookup m₁ k = none) : alistLookup (m₁ ++ m₂) k = alistLookup m₂ k := by
  induction m₁ with
  | nil => simp
  | cons p m ih =>
    by_cases hp : p.1 = k
    · simp_all [alistLookup]
    · simp_all [alistLookup]

theorem alistLookup_append_none_of_none (m₁ m₂ : List (α × β)) (k : α)
    (h : alistLookup (m₁ ++ m₂) k = none) : alistLookup m₁ k = none := by
  cases h1 : alistLookup m₁ k with
  | none => rfl
  | some v => rw [alistLookup_append_some m₁ m₂ k v h1] at h; exact absurd h (by simp)

end AlistLemmas

theorem lookup_ensureChat_of_some (store : Store) (c c' : Int) (st : ChatState)
    (h : alistLookup store c' = some st) :
    alistLookup (ensureChat store c) c' = some st := by
  unfold ensureChat
  by_cases hc : (alistLookup store c).isSome
  · simp [hc, h]
  · simp only [hc, if_neg, Bool.false_eq_true, not_false_iff, if_false]
    exact alistLookup_append_some _ _ _ _ h

theorem ensureChat_of_isSome (store : Store) (c : Int)
    (h : (alistLookup store c).isSome) : ensureChat store c = store := by
  simp [ensureChat, h]

theorem lookup_ensureChat_self (store : Store) (c : Int) :
    alistLookup (ensureChat store c) c = some ((alistLookup store c).getD newChat) := by
  unfold ensureChat
  cases h : alistLookup store c with
  | some st => simp [h]
  | none =>
    simp only [h, Option.isSome_none, Bool.false_eq_true, if_false, Option.getD_none]
    rw [alistLookup_append_none _ _ _ h]
    simp [alistLookup]

theorem lookup_ensureChat_rev (store : Store) (c c' : Int) (st : ChatState)
    (h : alistLookup (ensureChat store c) c' = some st) :
    alistLookup store c' = some st ∨ (c' = c ∧ alistLookup store c = none ∧ st = newChat) := by
  unfold ensureChat at h
  by_cases hc : (alistLookup store c).isSome
  · simp only [hc, if_true] at h
    exact Or.inl h
  · simp only [hc, Bool.false_eq_true, if_false] at h
    cases h1 : alistLookup store c' with
    | some st' =>
      rw [alistLookup_append_some _ _ _ _ h1] at h
      exact Or.inl h
    | none =>
      rw [alistLookup_append_none _ _ _ h1] at h
      by_cases hcc : c = c'
      · subst hcc
        simp only [alistLookup, if_pos rfl] at h
        exact Or.inr ⟨rfl, by simpa using hc, (Option.some_inj.mp h).symm⟩
      · simp [alistLookup, hcc] at h

theorem mem_setAdd (s : List Str) (x y : Str) :
    x ∈ setAdd s y ↔ x ∈ s ∨ x = y := by
  unfold setAdd
  by_cases h : y ∈ s
  · simp only [if_pos h]
    constructor
    · exact Or.inl
    · rintro (hx | rfl)
      · exact hx
      · exact h
  · simp [if_neg h]

theorem setAdd_of_mem (s : List Str) (y : Str) (h : y ∈ s) : setAdd s y = s := by
  simp [setAdd, h]

theorem setAdd_nodup (s : List Str) (y : Str) (h : s.Nodup) : (setAdd s y).Nodup := by
  unfold setAdd
  by_cases hy : y ∈ s
  · simp [hy, h]
  · simp [hy, List.nodup_append, h]

theorem mem_foldl_ethStep (l : List Str) :
    ∀ (s : List Str) (x : Str),
      x ∈ l.foldl ethStep s ↔ x ∈ s ∨ ∃ m ∈ l, x = lowerStr m := by
  induction l with
  | nil => simp
  | cons a l ih =>
    intro s x
    simp only [List.foldl_cons, ih, ethStep, mem_setAdd, List.mem_cons]
    constructor
    · rintro ((hx | rfl) | ⟨m, hm, rfl⟩)
      · exact Or.inl hx
      · exact Or.inr ⟨a, Or.inl rfl, rfl⟩
      · exact Or.inr ⟨m, Or.inr hm, rfl⟩
    · rintro (hx | ⟨m, (rfl | hm), rfl⟩)
      · exact Or.inl (Or.inl hx)
      · exact Or.inl (Or.inr rfl)
      · exact Or.inr ⟨m, hm, rfl⟩

theorem foldl_ethStep_nodup (l : List Str) :
    ∀ (s : List Str), s.Nodup → (l.foldl ethStep s).Nodup := by
  induction l with
  | nil => intro s h; exact h
  | cons a l ih =>
    intro s h
    exact ih _ (setAdd_nodup _ _ h)

theorem foldl_ethStep_id (l : List Str) :
    ∀ (s : List Str), (∀ m ∈ l, lowerStr m ∈ s) → l.foldl ethStep s = s := by
  induction l with
  | nil => intro s _; rfl
  | cons a l ih =>
    intro s h
    have ha : lowerStr a ∈ s := h a (List.mem_cons_self a l)
    simp only [List.foldl_cons, ethStep, setAdd_of_mem s (lowerStr a) ha]
    exact ih s (fun m hm => h m (List.mem_cons_of_mem a hm))

theorem mem_foldl_ensAccStep (l : List (Str × Option Str)) :
    ∀ (s : List Str) (x : Str),
      x ∈ l.foldl ensAccStep s ↔
        x ∈ s ∨ ∃ p ∈ l, jsTruthy p.2 = true ∧ x = lowerStr (p.2.getD []) := by
  induction l with
  | nil => simp
  | cons a l ih =>
    intro s x
    by_cases ht : jsTruthy a.2
    · simp only [List.foldl_cons, ensAccStep, if_pos ht, ih, mem_setAdd, List.mem_cons]
      constructor
      · rintro ((hx | rfl) | ⟨p, hp, hq, rfl⟩)
        · exact Or.inl hx
        · exact Or.inr ⟨a, Or.inl rfl, ht, rfl⟩
        · exact Or.inr ⟨p, Or.inr hp, hq, rfl⟩
      · rintro (hx | ⟨p, (rfl | hp), hq, rfl⟩)
        · exact Or.inl (Or.inl hx)
        · exact Or.inl (Or.inr rfl)
        · exact Or.inr ⟨p, hp, hq, rfl⟩
    · simp only [List.foldl_cons, ensAccStep, if_neg ht, ih, List.mem_cons]
      constructor
      · rintro (hx | ⟨p, hp, hq, rfl⟩)
        · exact Or.inl hx
        · exact Or.inr ⟨p, Or.inr hp, hq, rfl⟩
      · rintro (hx | ⟨p, (rfl | hp), hq, rfl⟩)
        · exact Or.inl hx
        · exact absurd hq ht
        · exact Or.inr ⟨p, hp, hq, rfl⟩

theorem foldl_ensAccStep_nodup (l : List (Str × Option Str)) :
    ∀ (s : List Str), s.Nodup → (l.foldl ensAccStep s).Nodup := by
  induction l with
  | nil => intro s h; exact h
  | cons a l ih =>
    intro s h
    refine ih _ ?_
    unfold ensAccStep
    by_cases ht : jsTruthy a.2
    · simp only [if_pos ht]; exact setAdd_nodup _ _ h
    · simp only [if_neg ht]; exact h

theorem buildAddressSet_nodup (st : ChatState) : (buildAddressSet st).Nodup :=
  foldl_ensAccStep_nodup _ _ (foldl_ethStep_nodup _ _ List.nodup_nil)

theorem mem_buildAddressSet (st : ChatState) (x : Str) :
    x ∈ buildAddressSet st ↔
      (∃ a ∈ st.ethSet, x = lowerStr a) ∨
      (∃ p ∈ st.ensMap, jsTruthy p.2 = true ∧ x = lowerStr (p.2.getD [])) := by
  unfold buildAddressSet
  rw [mem_foldl_ensAccStep, mem_foldl_ethStep]
  simp

/-! ### Stable insertion sort used for `addresses.sort` -/

theorem insertLE_perm {α : Type} (le : α → α → Bool) (x : α) (l : List α) :
    List.Perm (insertLE le x l) (x :: l) := by
  induction l with
  | nil => exact List.Perm.refl _
  | cons y ys ih =>
    unfold insertLE
    by_cases h : le x y
    · simp [h]
    · simp only [if_neg h]
      exact (ih.cons y).trans (List.Perm.swap x y ys)

theorem sortIns_perm {α : Type} (le : α → α → Bool) (l : List α) :
    List.Perm (sortIns le l) l := by
  induction l with
  | nil => exact List.Perm.refl _
  | cons x xs ih =>
    exact (insertLE_perm le x (sortIns le xs)).trans (ih.cons x)

theorem sortedAddresses_perm (getAddress : Option (Str → Option Str)) (st : ChatState) :
    List.Perm (sortedAddresses getAddress st) (checksummedAddresses getAddress st) :=
  sortIns_perm _ _

/-! ### UTF-16 size arithmetic -/

theorem utf16Len_def (s : Str) :
    utf16Len s
      = s.foldl (fun n c => n + (if (0x10000 : UInt32) ≤ c.val then 2 else 1)) 0 := rfl

theorem utf16Len_foldl (s : Str) :
    ∀ n : Nat,
      s.foldl (fun n c => n + (if (0x10000 : UInt32) ≤ c.val then 2 else 1)) n
        = n + utf16Len s := by
  induction s with
  | nil => intro n; simp [utf16Len]
  | cons c s ih =>
    intro n
    rw [List.foldl_cons, ih, utf16Len_def (c :: s), List.foldl_cons, ih]
    omega

theorem utf16Len_cons (c : Char) (s : Str) :
    utf16Len (c :: s) = (if (0x10000 : UInt32) ≤ c.val then 2 else 1) + utf16Len s := by
  rw [utf16Len_def (c :: s), List.foldl_cons, utf16Len_foldl]
  omega

theorem utf16Len_append (a b : Str) :
    utf16Len (a ++ b) = utf16Len a + utf16Len b := by
  rw [utf16Len_def (a ++ b), List.foldl_append, utf16Len_foldl, ← utf16Len_def a]

theorem utf16Len_eq_zero (s : Str) : utf16Len s = 0 ↔ s = [] := by
  cases s with
  | nil => simp [utf16Len]
  | cons c s =>
    rw [utf16Len_cons]
    constructor
    · intro h
      by_cases hc : (0x10000 : UInt32) ≤ c.val
      · rw [if_pos hc] at h; omega
      · rw [if_neg hc] at h; omega
    · intro h; exact absurd h (by simp)

theorem utf16Len_joinNL (l : List Str) :
    utf16Len (joinNL l) = (l.map utf16Len).sum + l.length - 1 := by
  induction l with
  | nil => simp [joinNL, utf16Len]
  | cons a t ih =>
    cases t with
    | nil => simp [joinNL, utf16Len]
    | cons b t' =>
      show utf16Len (a ++ '\n' :: joinNL (b :: t')) = _
      rw [utf16Len_append, utf16Len_cons, ih]
      have hge : 1 ≤ ((b :: t').map utf16Len).sum + (b :: t').length := by
        simp [List.length_cons]
        omega
      simp only [List.map_cons, List.sum_cons, List.length_cons] at *
      have hnl : ¬((0x10000 : UInt32) ≤ '\n'.val) := by decide
      rw [if_neg hnl]
      omega

theorem chunkStep_foldl (addrs : List Str) :
    ∀ (chunks : List Str) (cur : Str),
      ((addrs.foldl chunkStep (chunks, cur)).1.map utf16Len,
        utf16Len (addrs.foldl chunkStep (chunks, cur)).2)
      = (addrs.map (fun a => utf16Len a + 1)).foldl numChunkStep
          (chunks.map utf16Len, utf16Len cur) := by
  induction addrs with
  | nil => intro chunks cur; simp
  | cons a l ih =>
    intro chunks cur
    have hnl : utf16Len (['\n'] : Str) = 1 := by decide
    have hlen : utf16Len (cur ++ a ++ ['\n']) = utf16Len cur + (utf16Len a + 1) := by
      rw [utf16Len_append, utf16Len_append, hnl]
      omega
    have hline : utf16Len (a ++ ['\n']) = utf16Len a + 1 := by
      rw [utf16Len_append, hnl]
    rw [List.foldl_cons, List.map_cons, List.foldl_cons]
    have hstep : chunkStep (chunks, cur) a
        = if 4096 < utf16Len (cur ++ a ++ ['\n']) then (chunks ++ [cur], a ++ ['\n'])
          else (chunks, cur ++ a ++ ['\n']) := rfl
    have hnstep : numChunkStep (chunks.map utf16Len, utf16Len cur) (utf16Len a + 1)
        = if 4096 < utf16Len cur + (utf16Len a + 1)
          then (chunks.map utf16Len ++ [utf16Len cur], utf16Len a + 1)
          else (chunks.map utf16Len, utf16Len cur + (utf16Len a + 1)) := rfl
    rw [hstep, hnstep]
    by_cases hc : 4096 < utf16Len (cur ++ a ++ ['\n'])
    · have hc' : 4096 < utf16Len cur + (utf16Len a + 1) := by rw [← hlen]; exact hc
      rw [if_pos hc, if_pos hc', ih (chunks ++ [cur]) (a ++ ['\n'])]
      rw [List.map_append, hline]
      rfl
    · have hc' : ¬(4096 < utf16Len cur + (utf16Len a + 1)) := by rw [← hlen]; exact hc
      rw [if_neg hc, if_neg hc', ih chunks (cur ++ a ++ ['\n']), hlen]

theorem makeChunks_map_utf16 (header : Str) (addrs : List Str) :
    (makeChunks header addrs).map utf16Len
      = numChunks (utf16Len header) (addrs.map (fun a => utf16Len a + 1)) := by
  unfold makeChunks numChunks
  have h := chunkStep_foldl addrs [] header
  simp only [List.map_nil] at h
  have h1 := congrArg Prod.fst h
  have h2 := congrArg Prod.snd h
  simp only at h1 h2
  by_cases he : (addrs.foldl chunkStep ([], header)).2.isEmpty
  · have hz : utf16Len (addrs.foldl chunkStep ([], header)).2 = 0 :=
      (utf16Len_eq_zero _).mpr (List.isEmpty_iff.mp he)
    simp only [he, if_true]
    rw [if_pos (h2.symm.trans hz)]
    exact h1
  · have hz : utf16Len (addrs.foldl chunkStep ([], header)).2 ≠ 0 := by
      intro hc
      exact he (by simp [List.isEmpty_iff, (utf16Len_eq_zero _).mp hc])
    simp only [he, Bool.false_eq_true, if_false]
    rw [if_neg (fun hq => hz (h2.trans hq))]
    rw [List.map_append, h1]
    simp only [List.map_cons, List.map_nil]
    rw [h2]

/-! ## Claim theorems (C1, C2, C5, C8, C9) -/

set_option maxRecDepth 100000
set_option maxHeartbeats 4000000

/-- C1 (code bug): at a reachable state with 100 collected addresses and a
20-character chat title, `handleMakeList` splits the text into chunks of at
most 4096 UTF-16 units but then delivers `Part 1/2:\n\n` + chunk, so the first
message sent to the owner is 4100 units long — over the 4096 size limit the
chunking was meant to respect.  The spec's guarantee that no delivered block
(including its part-index line) exceeds the limit fails here. -/
theorem claimC1_oversized_delivered_block :
    ((handleMakeList none overflowChatName overflowStore 7).2).map
        (fun b => (b.1, utf16Len b.2))
      = [(Dest.ownerDM, 4100), (Dest.ownerDM, 312), (Dest.chatReply, 31)] ∧
    4096 < 4100 := by
  refine ⟨?_, by omega⟩
  have hsorted : sortedAddresses none overflowState = (List.range 100).map mkAddr := by decide
  have hmap : (sortedAddresses none overflowState).map utf16Len = List.replicate 100 42 := by
    rw [hsorted]; decide
  have hlen : (sortedAddresses none overflowState).length = 100 := by rw [hsorted]; simp
  have hH : utf16Len (makeHeader overflowChatName 100 0 100) = 90 := by decide
  have hsum : ((sortedAddresses none overflowState).map utf16Len).sum = 4200 := by
    rw [hmap]; decide
  have hcontent :
      utf16Len (makeHeader overflowChatName 100 0 100
        ++ joinNL (sortedAddresses none overflowState)) = 4389 := by
    rw [utf16Len_append, hH, utf16Len_joinNL, hsum, hlen]
  have hm43 : (sortedAddresses none overflowState).map (fun a => utf16Len a + 1)
      = List.replicate 100 43 := by
    have h0 := congrArg (List.map (fun n => n + 1)) hmap
    rw [List.map_map, List.map_replicate] at h0
    exact h0
  have hcm : (makeChunks (makeHeader overflowChatName 100 0 100)
      (sortedAddresses none overflowState)).map utf16Len = [4089, 301] := by
    rw [makeChunks_map_utf16, hH, hm43]
    decide
  obtain ⟨c1, c2, hc12, hu1, hu2⟩ :
      ∃ c1 c2, makeChunks (makeHeader overflowChatName 100 0 100)
          (sortedAddresses none overflowState) = [c1, c2]
        ∧ utf16Len c1 = 4089 ∧ utf16Len c2 = 301 := by
    cases hch : makeChunks (makeHeader overflowChatName 100 0 100)
        (sortedAddresses none overflowState) with
    | nil => rw [hch] at hcm; simp at hcm
    | cons c1 t =>
      cases t with
      | nil => rw [hch] at hcm; simp at hcm
      | cons c2 t' =>
        cases t' with
        | nil =>
          rw [hch] at hcm
          simp only [List.map_cons, List.map_nil, List.cons.injEq, and_true] at hcm
          exact ⟨c1, c2, rfl, hcm.1, hcm.2⟩
        | cons c3 t'' => rw [hch] at hcm; simp at hcm
  have hst : (alistLookup (ensureChat overflowStore 7) 7).getD newChat = overflowState := by
    rw [ensureChat_of_isSome overflowStore 7 (by rfl)]
    rfl
  have hP : utf16Len ("Part ".data) = 5 := by decide
  have hn1 : utf16Len (natStr (0 + 1)) = 1 := by decide
  have hn2' : utf16Len (natStr (1 + 1)) = 1 := by decide
  have hn2 : utf16Len (natStr 2) = 1 := by decide
  have hcl : utf16Len (":\n\n".data) = 3 := by decide
  have hslash : ∀ s : Str, utf16Len ('/' :: s) = 1 + utf16Len s := by
    intro s
    rw [utf16Len_cons, if_neg (by decide : ¬((0x10000 : UInt32) ≤ '/'.val))]
  have hsent : utf16Len ("Sent you a DM with the results.".data) = 31 := by decide
  simp only [handleMakeList, hst]
  rw [hlen]
  simp only [show (100 = 0) = False by simp, if_false]
  have heth : overflowState.ethSet.length = 100 := by decide
  have hens : (overflowState.ensMap.filter (fun p => p.2.isSome)).length = 0 := by decide
  rw [heth, hens, hcontent]
  simp only [show (4389 ≤ 4096) = False by simp, if_false]
  rw [hc12]
  simp only [List.length_cons, List.length_nil]
  rw [show List.range (0 + 1 + 1) = [0, 1] from by decide]
  simp only [List.map_cons, List.map_nil, List.map_append, List.getD_cons_zero,
    List.getD_cons_succ]
  have hb0 : utf16Len ((['P', 'a', 'r', 't', ' '] : Str) ++ natStr (0 + 1)
      ++ '/' :: natStr (0 + 1 + 1) ++ ([':', '\n', '\n'] : Str) ++ c1) = 4100 := by
    simp only [utf16Len_append, hslash]
    rw [hu1]
    decide
  have hb1 : utf16Len ((['P', 'a', 'r', 't', ' '] : Str) ++ natStr (1 + 1)
      ++ '/' :: natStr (0 + 1 + 1) ++ ([':', '\n', '\n'] : Str) ++ c2) = 312 := by
    simp only [utf16Len_append, hslash]
    rw [hu2]
    decide
  rw [hb0, hb1,
    show utf16Len (['S', 'e', 'n', 't', ' ', 'y', 'o', 'u', ' ', 'a', ' ', 'D', 'M',
      ' ', 'w', 'i', 't', 'h', ' ', 't', 'h', 'e', ' ', 'r', 'e', 's', 'u', 'l', 't',
      's', '.'] : Str) = 31 from by decide]
  rfl

/-- C2: for every chat state whose stored resolution results are genuine
addresses (never the empty string — the only results the resolution path can
store), the export result set built by `handleMakeList` is duplicate-free and
contains exactly the lower-cased directly-collected addresses together with
the lower-cased resolved addresses of names with a non-null outcome; names
with a null outcome contribute nothing. -/
theorem claimC2_export_set (st : ChatState)
    (h : ∀ p ∈ st.ensMap, p.2 ≠ some ([] : Str)) :
    (buildAddressSet st).Nodup ∧
    ∀ x : Str, x ∈ buildAddressSet st ↔
      ((∃ a ∈ st.ethSet, x = lowerStr a) ∨
       (∃ n v, (n, some v) ∈ st.ensMap ∧ x = lowerStr v)) := by
  refine ⟨buildAddressSet_nodup st, fun x => ?_⟩
  rw [mem_buildAddressSet]
  constructor
  · rintro (⟨a, ha, rfl⟩ | ⟨p, hp, ht, rfl⟩)
    · exact Or.inl ⟨a, ha, rfl⟩
    · cases hv : p.2 with
      | none => rw [hv] at ht; simp [jsTruthy] at ht
      | some v =>
        refine Or.inr ⟨p.1, v, ?_, rfl⟩
        have : p = (p.1, some v) := Prod.ext rfl hv
        rw [← this]; exact hp
  · rintro (⟨a, ha, rfl⟩ | ⟨n, v, hnv, rfl⟩)
    · exact Or.inl ⟨a, ha, rfl⟩
    · refine Or.inr ⟨(n, some v), hnv, ?_, rfl⟩
      have hv : v ≠ [] := by
        intro he
        exact h (n, some v) hnv (by rw [he])
      simp [jsTruthy, hv]

/-- Witness for C2 at a concrete state: an address collected directly and the
same address obtained from a resolved name collapse to one entry. -/
theorem claimC2_export_set_witness :
    ("0xab".data : Str) ∈ buildAddressSet
      { watching := true, ethSet := ["0xAB".data],
        ensMap := [("a.eth".data, some ("0xab".data)), ("b.eth".data, none)] } :=
  ((claimC2_export_set _ (by decide)).2 _).mpr
    (Or.inl ⟨"0xAB".data, by decide, by decide⟩)

/-- C5 counterexample: running the collection pipeline for a chat with no
state yet does not leave all program state unchanged — `handleText` calls
`ensureChat` before checking the watching flag, so the registry gains a fresh
default entry. -/
theorem claimC5_registry_counterexample :
    (handleText ([] : Store) 0 ['h', 'i']).1 = [(0, newChat)] ∧
    ([(0, newChat)] : Store) ≠ ([] : Store) := by
  constructor
  · decide
  · decide

/-- C5 as amended: for a chat that is not watching (or has no state yet), the
pipeline records no address or name, schedules no resolution, and changes the
registry only by inserting a fresh default state when the chat was unseen;
for a chat that already has state, the registry is completely unchanged. -/
theorem claimC5_nonwatching_frame (store : Store) (chatId : Int) (text : Str)
    (h : (chatOf store chatId).watching = false) :
    (handleText store chatId text).2 = [] ∧
    (handleText store chatId text).1 = ensureChat store chatId ∧
    ((alistLookup store chatId).isSome → (handleText store chatId text).1 = store) := by
  have hx : handleText store chatId text = (ensureChat store chatId, []) := by
    unfold handleText
    simp only [chatOf] at h
    simp [h]
  exact ⟨by rw [hx], by rw [hx],
    fun hs => by rw [hx]; exact ensureChat_of_isSome store chatId hs⟩

/-- Witness for C5 at a concrete non-watching chat containing an address in
the incoming text. -/
theorem claimC5_nonwatching_frame_witness :
    (handleText ([(3, newChat)] : Store) 3
      ("0x1234567890123456789012345678901234567890".data)).1 = [(3, newChat)] :=
  (claimC5_nonwatching_frame [(3, newChat)] 3 _ (by decide)).2.2 (by decide)

/-- C8: with the checksum capability available, every address of the result
set is mapped through it; an address on which it throws (modelled by `none`)
is emitted in its pre-checksum form, the others checksummed, and no address is
dropped (the export is produced in full). -/
theorem claimC8_checksum_fallback (f : Str → Option Str) (st : ChatState) :
    (sortedAddresses (some f) st).length = (buildAddressSet st).length ∧
    ∀ a ∈ buildAddressSet st,
      (match f a with
       | some c => c
       | none => a) ∈ sortedAddresses (some f) st := by
  have hperm := sortedAddresses_perm (some f) st
  constructor
  · rw [hperm.length_eq]
    simp [checksummedAddresses]
  · intro a ha
    rw [hperm.mem_iff]
    unfold checksummedAddresses
    exact List.mem_map_of_mem _ ha

/-- Witness for C8: a throwing checksum function leaves the address in its
pre-checksum lowercase form while the export still contains it. -/
theorem claimC8_checksum_fallback_witness :
    ("0xab".data : Str) ∈ sortedAddresses (some (fun _ => (none : Option Str)))
      { watching := true, ethSet := ["0xAB".data], ensMap := [] } :=
  (claimC8_checksum_fallback (fun _ => none) _).2 ("0xab".data) (by decide)

/-- C9 counterexample: on an empty result set, the single
"no addresses collected" message is emitted as a reply in the originating chat
(`ctx.reply`), not as a direct message to the operator as the claim states. -/
theorem claimC9_empty_counterexample :
    (handleMakeList none (['C'] : Str) ([] : Store) 0).2
      = [(Dest.chatReply, "No addresses collected yet.".data)] ∧
    Dest.chatReply ≠ Dest.ownerDM := by
  constructor
  · decide
  · decide

/-- C9 as amended: on an empty export result set, `handleMakeList` produces
exactly one message stating no addresses were collected, delivered as a reply
in the originating chat (no direct message is sent). -/
theorem claimC9_empty_reply (gA : Option (Str → Option Str)) (chatName : Str)
    (store : Store) (chatId : Int)
    (h : buildAddressSet (chatOf store chatId) = []) :
    (handleMakeList gA chatName store chatId).2
      = [(Dest.chatReply, "No addresses collected yet.".data)] := by
  have h2 : sortedAddresses gA (chatOf store chatId) = [] := by
    unfold sortedAddresses checksummedAddresses
    cases gA with
    | none => rw [h]; rfl
    | some f => rw [h]; rfl
  simp only [chatOf] at h2
  simp [handleMakeList, h2]

/-- Witness for C9 at a chat that has collected nothing. -/
theorem claimC9_empty_reply_witness :
    (handleMakeList none (['T'] : Str) ([(4, newChat)] : Store) 4).2
      = [(Dest.chatReply, "No addresses collected yet.".data)] :=
  claimC9_empty_reply none ['T'] [(4, newChat)] 4 (by decide)

/-! ### Lemmas about the ENS cache fold of `handleText` -/

theorem ensFold_lookup_isSome_pres (l : List Str) :
    ∀ (acc : List (Str × Option Str) × List Str) (k : Str),
      (alistLookup acc.1 k).isSome → (alistLookup (l.foldl ensStep acc).1 k).isSome := by
  induction l with
  | nil => intro acc k hk; exact hk
  | cons raw l ih =>
    intro acc k hk
    rw [List.foldl_cons]
    apply ih
    unfold ensStep
    by_cases h : (alistLookup acc.1 (lowerStr raw)).isSome
    · simp only [h, if_true]
      exact hk
    · simp only [h, Bool.false_eq_true, if_false]
      cases hv : alistLookup acc.1 k with
      | none => rw [hv] at hk; exact absurd hk (by simp)
      | some v => simp [alistLookup_append_some _ _ _ _ hv]

theorem ensFold_mem_isSome (l : List Str) :
    ∀ (acc : List (Str × Option Str) × List Str) (raw : Str), raw ∈ l →
      (alistLookup (l.foldl ensStep acc).1 (lowerStr raw)).isSome := by
  induction l with
  | nil => intro _ raw h; exact absurd h (List.not_mem_nil raw)
  | cons a l ih =>
    intro acc raw hraw
    rw [List.foldl_cons]
    rcases List.mem_cons.mp hraw with rfl | hmem
    · apply ensFold_lookup_isSome_pres
      unfold ensStep
      by_cases h : (alistLookup acc.1 (lowerStr raw)).isSome
      · simp only [h, if_true]
      · simp only [h, Bool.false_eq_true, if_false]
        have hn : alistLookup acc.1 (lowerStr raw) = none := by
          cases hv : alistLookup acc.1 (lowerStr raw) with
          | none => rfl
          | some v => rw [hv] at h; exact absurd rfl h
        rw [alistLookup_append_none _ _ _ hn]
        simp [alistLookup]
    · exact ih _ raw hmem

theorem ensFold_id (l : List Str) :
    ∀ (m : List (Str × Option Str)) (f0 : List Str),
      (∀ raw ∈ l, (alistLookup m (lowerStr raw)).isSome) →
      l.foldl ensStep (m, f0) = (m, f0) := by
  induction l with
  | nil => intro m f0 _; rfl
  | cons a l ih =>
    intro m f0 h
    rw [List.foldl_cons]
    have ha := h a (List.mem_cons_self a l)
    have hstep : ensStep (m, f0) a = (m, f0) := by
      unfold ensStep
      simp only [ha, if_true]
    rw [hstep]
    exact ih m f0 (fun raw hr => h raw (List.mem_cons_of_mem a hr))

/-- Second run of `handleText` on a state that already absorbed the text. -/
theorem handleText_stored (s : Store) (cid : Int) (text : Str) (st' : ChatState)
    (hlook : alistLookup s cid = some st')
    (hw : st'.watching = true)
    (heth : (ethMatches text).foldl ethStep st'.ethSet = st'.ethSet)
    (hens : (ensMatches text).foldl ensStep (st'.ensMap, []) = (st'.ensMap, [])) :
    handleText s cid text = (s, []) := by
  simp only [handleText]
  rw [ensureChat_of_isSome s cid (by simp [hlook]), hlook]
  simp only [Option.getD_some]
  rw [if_neg (by simp [hw]), heth, hens]
  have hrec : { st' with ethSet := st'.ethSet, ensMap := st'.ensMap } = st' := rfl
  rw [hrec, alistSet_self s cid st' hlook]

/-- C3: feeding the same text twice to a watching chat leaves the registry as
after one feeding, and the second pass launches no resolution task. -/
theorem claimC3_idempotent (store : Store) (chatId : Int) (text : Str)
    (h : (chatOf store chatId).watching = true) :
    handleText (handleText store chatId text).1 chatId text
      = ((handleText store chatId text).1, []) := by
  simp only [chatOf] at h
  have h1 : handleText store chatId text
      = (alistSet (ensureChat store chatId) chatId
          { (alistLookup (ensureChat store chatId) chatId).getD newChat with
            ethSet := (ethMatches text).foldl ethStep
              ((alistLookup (ensureChat store chatId) chatId).getD newChat).ethSet,
            ensMap := ((ensMatches text).foldl ensStep
              (((alistLookup (ensureChat store chatId) chatId).getD newChat).ensMap, [])).1 },
         ((ensMatches text).foldl ensStep
           (((alistLookup (ensureChat store chatId) chatId).getD newChat).ensMap, [])).2) := by
    simp only [handleText]
    rw [if_neg (by simp [h])]
  rw [h1]
  apply handleText_stored
  · exact alistLookup_alistSet_self _ _ _
  · exact h
  · apply foldl_ethStep_id
    intro m hm
    rw [mem_foldl_ethStep]
    exact Or.inr ⟨m, hm, rfl⟩
  · apply ensFold_id
    intro raw hr
    exact ensFold_mem_isSome _ _ raw hr

/-- Witness for C3 at a watching chat receiving an address and a name. -/
theorem claimC3_idempotent_witness :
    handleText
      (handleText [((0 : Int), ChatState.mk true [] [])] 0
        ("hi 0x1234567890123456789012345678901234567890 a.eth".data)).1 0
      ("hi 0x1234567890123456789012345678901234567890 a.eth".data)
    = ((handleText [((0 : Int), ChatState.mk true [] [])] 0
        ("hi 0x1234567890123456789012345678901234567890 a.eth".data)).1, []) :=
  claimC3_idempotent [((0 : Int), ChatState.mk true [] [])] 0 _ (by decide)

/-! ### C10: commands in channel posts bypass the collector -/

theorem lookup_ensureChat_cases (store : Store) (c cid' : Int) :
    alistLookup (ensureChat store c) cid' = alistLookup store cid' ∨
      (cid' = c ∧ alistLookup store c = none ∧
        alistLookup (ensureChat store c) cid' = some newChat) := by
  by_cases hc : (alistLookup store c).isSome
  · rw [ensureChat_of_isSome _ _ hc]
    exact Or.inl rfl
  · have hnone : alistLookup store c = none := by
      cases hv : alistLookup store c with
      | none => rfl
      | some v => rw [hv] at hc; exact absurd rfl hc
    have hens : ensureChat store c = store ++ [(c, newChat)] := by
      simp [ensureChat, hnone]
    by_cases hcc : cid' = c
    · subst hcc
      rw [hens, alistLookup_append_none _ _ _ hnone]
      exact Or.inr ⟨rfl, hnone, by simp [alistLookup]⟩
    · cases h1 : alistLookup store cid' with
      | some v => rw [hens, alistLookup_append_some _ _ _ _ h1]; exact Or.inl rfl
      | none =>
        rw [hens, alistLookup_append_none _ _ _ h1]
        refine Or.inl ?_
        have hnc : ¬(c = cid') := fun e => hcc e.symm
        simp [alistLookup, hnc]

/-- C10: a channel post whose trimmed text starts with one of the four command
markers is dispatched as a command and never reaches the collector: no
resolution task is launched, and every chat's collection state is preserved
(the only possible registry change is `ensureChat` inserting a fresh default
state for a previously-unseen chat). -/
theorem claimC10_command_posts_not_collected (store : Store) (chatId : Int) (text : Str)
    (h : (isCmd text (cmdName .help) || isCmd text (cmdName .whoami)
        || isCmd text (cmdName .status) || isCmd text (cmdName .makelist)) = true) :
    (channelPostStep store chatId text).2 = [] ∧
    ∀ cid', alistLookup (channelPostStep store chatId text).1 cid' = alistLookup store cid' ∨
      (cid' = chatId ∧ alistLookup store chatId = none ∧
        alistLookup (channelPostStep store chatId text).1 cid' = some newChat) := by
  unfold channelPostStep channelDispatch
  by_cases h1 : isCmd text (cmdName .help)
  · rw [if_pos h1]
    exact ⟨rfl, fun cid' => Or.inl rfl⟩
  · rw [if_neg h1]
    by_cases h2 : isCmd text (cmdName .whoami)
    · rw [if_pos h2]
      exact ⟨rfl, fun cid' => Or.inl rfl⟩
    · rw [if_neg h2]
      by_cases h3 : isCmd text (cmdName .status)
      · rw [if_pos h3]
        exact ⟨rfl, fun cid' => lookup_ensureChat_cases store chatId cid'⟩
      · rw [if_neg h3]
        by_cases h4 : isCmd text (cmdName .makelist)
        · rw [if_pos h4]
          exact ⟨rfl, fun cid' => lookup_ensureChat_cases store chatId cid'⟩
        · exfalso
          simp only [Bool.or_eq_true] at h
          rcases h with ((ha | hb) | hc) | hd
          exacts [h1 ha, h2 hb, h3 hc, h4 hd]

/-- Witness for C10 at a concrete makelist channel post containing an
address. -/
theorem claimC10_command_posts_not_collected_witness :
    (channelPostStep ([] : Store) 0
      ("/makelist 0x1234567890123456789012345678901234567890".data)).2 = [] :=
  (claimC10_command_posts_not_collected [] 0 _ (by decide)).1

/-! ### C7: channel-post command test versus registered command matching -/

theorem dropWhile_append_split {α : Type} (p : α → Bool) (l₁ l₂ : List α) :
    (l₁ ++ l₂).dropWhile p
      = if (l₁.dropWhile p).isEmpty then l₂.dropWhile p else l₁.dropWhile p ++ l₂ := by
  induction l₁ with
  | nil => simp
  | cons a l ih =>
    by_cases hp : p a
    · simp [List.dropWhile_cons, hp, ih]
    · simp [List.dropWhile_cons, hp]

theorem trimRight_append (a b : Str) (h : a.reverse.dropWhile isJsSpace = a.reverse) :
    ((a ++ b).reverse.dropWhile isJsSpace).reverse
      = a ++ (b.reverse.dropWhile isJsSpace).reverse := by
  rw [List.reverse_append, dropWhile_append_split]
  by_cases he : (b.reverse.dropWhile isJsSpace).isEmpty
  · rw [if_pos he, h, List.reverse_reverse, List.isEmpty_iff.mp he]
    simp
  · rw [if_neg he, List.reverse_append, List.reverse_reverse]

theorem isPrefixOf_append_self {α : Type} [DecidableEq α] (l t : List α) :
    List.isPrefixOf l (l ++ t) = true := by
  induction l with
  | nil => simp [List.isPrefixOf]
  | cons a l ih => simp [List.isPrefixOf, ih]

theorem isPrefixOf_cons_ne {α : Type} [DecidableEq α] (a b : α) (as bs : List α)
    (h : ¬(a = b)) : List.isPrefixOf (a :: as) (b :: bs) = false := by
  simp [List.isPrefixOf, h]

/-- C7 counterexample: the text `/helpme` is dispatched as the help command on
the channel-post path (plain startsWith test) but matches no registered
command on the regular-message path (the token `helpme` is not a command
name), so the two dispatch paths do not recognize the same texts. -/
theorem claimC7_dispatch_counterexample :
    channelDispatch ("/helpme".data) = some Cmd.help ∧
    msgDispatch ("/helpme".data) = none := by
  constructor
  · decide
  · decide

/-- C7 as amended: the channel-post dispatch is a superset of the registered
dispatch — any text the regular-message registration recognizes as command `c`
is dispatched to the same command `c` on the channel-post path (the converse
fails, as the counterexample shows). -/
theorem claimC7_dispatch_superset (text : Str) (c : Cmd)
    (h : msgDispatch text = some c) :
    channelDispatch text = some c := by
  obtain ⟨tok, htok, hc⟩ : ∃ tok, msgCommandToken text = some tok ∧ tok = cmdName c := by
    unfold msgDispatch at h
    cases hmt : msgCommandToken text with
    | none => rw [hmt] at h; exact absurd h (by simp)
    | some t =>
      rw [hmt] at h
      have h' : (if t = cmdName .help then some Cmd.help
          else if t = cmdName .whoami then some Cmd.whoami
          else if t = cmdName .status then some Cmd.status
          else if t = cmdName .makelist then some Cmd.makelist
          else none) = some c := h
      refine ⟨t, rfl, ?_⟩
      by_cases e1 : t = cmdName .help
      · rw [if_pos e1] at h'
        rw [e1, ← Option.some_inj.mp h']
      · rw [if_neg e1] at h'
        by_cases e2 : t = cmdName .whoami
        · rw [if_pos e2] at h'
          rw [e2, ← Option.some_inj.mp h']
        · rw [if_neg e2] at h'
          by_cases e3 : t = cmdName .status
          · rw [if_pos e3] at h'
            rw [e3, ← Option.some_inj.mp h']
          · rw [if_neg e3] at h'
            by_cases e4 : t = cmdName .makelist
            · rw [if_pos e4] at h'
              rw [e4, ← Option.some_inj.mp h']
            · rw [if_neg e4] at h'
              exact absurd h' (by simp)
  obtain ⟨rest, hrest, htw⟩ :
      ∃ rest, text = '/' :: rest ∧
        rest.takeWhile (fun d => !isJsSpace d && !(d = '@')) = tok := by
    unfold msgCommandToken at htok
    cases text with
    | nil => exact absurd htok (by simp)
    | cons c0 rest =>
      have htok' : (if c0 = '/' then
          some (rest.takeWhile (fun d => !isJsSpace d && !(d = '@'))) else none)
          = some tok := htok
      by_cases h0 : c0 = '/'
      · subst h0
        rw [if_pos rfl] at htok'
        exact ⟨rest, rfl, Option.some_inj.mp htok'⟩
      · rw [if_neg h0] at htok'
        exact absurd htok' (by simp)
  subst hc
  subst hrest
  have hsplit : rest = cmdName c ++ rest.dropWhile (fun d => !isJsSpace d && !(d = '@')) := by
    conv_lhs => rw [← List.takeWhile_append_dropWhile
      (fun d => !isJsSpace d && !(d = '@')) rest]
    rw [htw]
  have hside : ('/' :: cmdName c).reverse.dropWhile isJsSpace = ('/' :: cmdName c).reverse := by
    cases c <;> decide
  have htrim : jsTrim ('/' :: rest)
      = ('/' :: cmdName c)
        ++ (((rest.dropWhile (fun d => !isJsSpace d && !(d = '@'))).reverse.dropWhile
              isJsSpace).reverse) := by
    unfold jsTrim
    rw [show ('/' :: rest).dropWhile isJsSpace = '/' :: rest from by
      rw [List.dropWhile_cons, if_neg (by decide)]]
    conv_lhs => rw [hsplit]
    rw [← List.cons_append]
    exact trimRight_append _ _ hside
  have hpos : isCmd ('/' :: rest) (cmdName c) = true := by
    unfold isCmd
    rw [htrim]
    exact isPrefixOf_append_self _ _
  unfold channelDispatch
  cases c with
  | help => rw [if_pos hpos]
  | whoami =>
    have hF1 : isCmd ('/' :: rest) (cmdName Cmd.help) = false := by
      unfold isCmd
      rw [htrim]
      simp only [cmdName, List.cons_append, List.nil_append]
      rw [show ∀ x : Str, List.isPrefixOf ('/' :: 'h' :: (['e', 'l', 'p'] : Str)) ('/' :: 'w' :: x)
          = ((('/' : Char) == '/') && List.isPrefixOf ('h' :: (['e', 'l', 'p'] : Str)) ('w' :: x))
        from fun x => rfl]
      rw [isPrefixOf_cons_ne _ _ _ _ (by decide : ¬('h' = 'w'))]
      simp
    rw [if_neg (by rw [hF1]; decide), if_pos hpos]
  | status =>
    have hF1 : isCmd ('/' :: rest) (cmdName Cmd.help) = false := by
      unfold isCmd
      rw [htrim]
      simp only [cmdName, List.cons_append, List.nil_append]
      rw [show ∀ x : Str, List.isPrefixOf ('/' :: 'h' :: (['e', 'l', 'p'] : Str)) ('/' :: 's' :: x)
          = ((('/' : Char) == '/') && List.isPrefixOf ('h' :: (['e', 'l', 'p'] : Str)) ('s' :: x))
        from fun x => rfl]
      rw [isPrefixOf_cons_ne _ _ _ _ (by decide : ¬('h' = 's'))]
      simp
    have hF2 : isCmd ('/' :: rest) (cmdName Cmd.whoami) = false := by
      unfold isCmd
      rw [htrim]
      simp only [cmdName, List.cons_append, List.nil_append]
      rw [show ∀ x : Str, List.isPrefixOf
            ('/' :: 'w' :: (['h', 'o', 'a', 'm', 'i'] : Str)) ('/' :: 's' :: x)
          = ((('/' : Char) == '/') && List.isPrefixOf
              ('w' :: (['h', 'o', 'a', 'm', 'i'] : Str)) ('s' :: x))
        from fun x => rfl]
      rw [isPrefixOf_cons_ne _ _ _ _ (by decide : ¬('w' = 's'))]
      simp
    rw [if_neg (by rw [hF1]; decide), if_neg (by rw [hF2]; decide), if_pos hpos]
  | makelist =>
    have hF1 : isCmd ('/' :: rest) (cmdName Cmd.help) = false := by
      unfold isCmd
      rw [htrim]
      simp only [cmdName, List.cons_append, List.nil_append]
      rw [show ∀ x : Str, List.isPrefixOf ('/' :: 'h' :: (['e', 'l', 'p'] : Str)) ('/' :: 'm' :: x)
          = ((('/' : Char) == '/') && List.isPrefixOf ('h' :: (['e', 'l', 'p'] : Str)) ('m' :: x))
        from fun x => rfl]
      rw [isPrefixOf_cons_ne _ _ _ _ (by decide : ¬('h' = 'm'))]
      simp
    have hF2 : isCmd ('/' :: rest) (cmdName Cmd.whoami) = false := by
      unfold isCmd
      rw [htrim]
      simp only [cmdName, List.cons_append, List.nil_append]
      rw [show ∀ x : Str, List.isPrefixOf
            ('/' :: 'w' :: (['h', 'o', 'a', 'm', 'i'] : Str)) ('/' :: 'm' :: x)
          = ((('/' : Char) == '/') && List.isPrefixOf
              ('w' :: (['h', 'o', 'a', 'm', 'i'] : Str)) ('m' :: x))
        from fun x => rfl]
      rw [isPrefixOf_cons_ne _ _ _ _ (by decide : ¬('w' = 'm'))]
      simp
    have hF3 : isCmd ('/' :: rest) (cmdName Cmd.status) = false := by
      unfold isCmd
      rw [htrim]
      simp only [cmdName, List.cons_append, List.nil_append]
      rw [show ∀ x : Str, List.isPrefixOf
            ('/' :: 's' :: (['t', 'a', 't', 'u', 's'] : Str)) ('/' :: 'm' :: x)
          = ((('/' : Char) == '/') && List.isPrefixOf
              ('s' :: (['t', 'a', 't', 'u', 's'] : Str)) ('m' :: x))
        from fun x => rfl]
      rw [isPrefixOf_cons_ne _ _ _ _ (by decide : ¬('s' = 'm'))]
      simp
    rw [if_neg (by rw [hF1]; decide), if_neg (by rw [hF2]; decide),
      if_neg (by rw [hF3]; decide), if_pos hpos]

/-- Witness for C7 at a concrete status message. -/
theorem claimC7_dispatch_superset_witness :
    channelDispatch ("/status".data) = some Cmd.status :=
  claimC7_dispatch_superset ("/status".data) Cmd.status (by decide)

/-! ### C4: the extractor returns exactly the word-boundary occurrences -/

theorem isWordChar_of_isHexChar (c : Char) (h : isHexChar c = true) :
    isWordChar c = true := by
  unfold isHexChar at h
  unfold isWordChar
  simp only [Bool.or_eq_true, Bool.and_eq_true, decide_eq_true_eq] at h ⊢
  rcases h with (⟨h1, h2⟩ | ⟨h1, h2⟩) | ⟨h1, h2⟩
  · exact Or.inl (Or.inl (Or.inl ⟨h1, le_trans h2 (by decide)⟩))
  · exact Or.inl (Or.inl (Or.inr ⟨h1, le_trans h2 (by decide)⟩))
  · exact Or.inl (Or.inr ⟨h1, h2⟩)

theorem ethScan_succ (fuel : Nat) (prev : Option Char) (c : Char) (cs : Str) :
    ethScan (fuel + 1) prev (c :: cs)
      = if ethOccB prev (c :: cs) then
          ((c :: cs).take 42) :: ethScan fuel (some (((c :: cs).take 42).getLastD c)) (cs.drop 41)
        else ethScan fuel (some c) cs := rfl

/-- Positions covered by an emitted match contribute nothing to the
specification-side scan: the preceding character is always a word character,
so the leading word boundary fails there. -/
theorem specScanAux_skip (u : Str) :
    ∀ (w : Char) (t : Str), isWordChar w = true → (∀ d ∈ u, isWordChar d = true) →
      specScanAux (some w) (u ++ t) = specScanAux (some (u.getLastD w)) t := by
  induction u with
  | nil => intro w t _ _; rfl
  | cons d u ih =>
    intro w t hw hu
    have hd : isWordChar d = true := hu d (List.mem_cons_self d u)
    have hbd : boundaryAt (some w) d = false := by
      show (isWordChar w != isWordChar d) = false
      rw [hw, hd]
      rfl
    show (if ethOccB (some w) (d :: (u ++ t)) then [(d :: (u ++ t)).take 42] else [])
        ++ specScanAux (some d) (u ++ t) = _
    have hocc : ethOccB (some w) (d :: (u ++ t)) = false := by
      show (boundaryAt (some w) d && ethShape (d :: (u ++ t))) = false
      rw [hbd]
      rfl
    rw [hocc, if_neg (by simp), List.nil_append, List.getLastD_cons]
    exact ih d t hd (fun e he => hu e (List.mem_cons_of_mem d he))

theorem ethScan_eq_specScanAux :
    ∀ (fuel : Nat) (cs : Str) (prev : Option Char), cs.length ≤ fuel →
      ethScan fuel prev cs = specScanAux prev cs := by
  intro n
  induction n with
  | zero =>
    intro cs prev hle
    rw [List.eq_nil_of_length_eq_zero (Nat.le_zero.mp hle)]
    rfl
  | succ n ih =>
    intro cs prev hle
    cases cs with
    | nil => rfl
    | cons c cs' =>
      by_cases hocc : ethOccB prev (c :: cs') = true
      · have hshape : (boundaryAt prev c && ethShape (c :: cs')) = true := hocc
        rw [Bool.and_eq_true] at hshape
        have hsh : ethShape (c :: cs') = true := hshape.2
        cases cs' with
        | nil => exact absurd hsh (by rw [show ethShape [c] = false from rfl]; simp)
        | cons c1 rest =>
          have hsh' : (((c = '0' : Bool) && (c1 = 'x')) && hexRun40 rest
              && afterBoundary (rest.drop 40)) = true := hsh
          simp only [Bool.and_eq_true, decide_eq_true_eq] at hsh'
          obtain ⟨⟨⟨hc0, hc1⟩, hrun⟩, _⟩ := hsh'
          subst hc0
          subst hc1
          rw [ethScan_succ, if_pos hocc]
          show _ = (if ethOccB prev ('0' :: 'x' :: rest) then [('0' :: 'x' :: rest).take 42]
              else []) ++ specScanAux (some '0') ('x' :: rest)
          rw [if_pos hocc, List.singleton_append]
          congr 1
          have hlen2 : (rest.drop 40).length ≤ n := by
            have h1 : (('0' : Char) :: 'x' :: rest).length = rest.length + 2 := by simp
            rw [h1] at hle
            rw [List.length_drop]
            omega
          rw [show (('x' :: rest).drop 41) = rest.drop 40 from rfl,
            ih (rest.drop 40) _ hlen2]
          have hu : ∀ d ∈ ('x' :: rest.take 40), isWordChar d = true := by
            intro d hd
            rcases List.mem_cons.mp hd with rfl | hmem
            · decide
            · have hrun' := hrun
              unfold hexRun40 at hrun'
              rw [Bool.and_eq_true] at hrun'
              have hall := hrun'.2
              rw [List.all_eq_true] at hall
              exact isWordChar_of_isHexChar d (hall d hmem)
          have hskip := specScanAux_skip ('x' :: rest.take 40) '0' (rest.drop 40)
            (by decide) hu
          rw [List.cons_append, List.take_append_drop] at hskip
          rw [hskip]
          rw [show (('0' :: 'x' :: rest).take 42).getLastD '0'
              = ('x' :: rest.take 40).getLastD '0' from by
            rw [show ('0' :: 'x' :: rest).take 42 = '0' :: 'x' :: rest.take 40 from rfl,
              List.getLastD_cons]]
      · have hocc' : ethOccB prev (c :: cs') = false := by
          cases hv : ethOccB prev (c :: cs') with
          | false => rfl
          | true => exact absurd hv hocc
        rw [ethScan_succ, if_neg (by rw [hocc']; simp)]
        show _ = (if ethOccB prev (c :: cs') then [(c :: cs').take 42] else [])
            ++ specScanAux (some c) cs'
        rw [hocc', if_neg (by simp), List.nil_append]
        exact ih cs' (some c) (Nat.le_of_succ_le_succ hle)

theorem specScanAux_positions :
    ∀ (cs : Str) (prev : Option Char),
      specScanAux prev cs = (List.range cs.length).filterMap (fun i =>
        if ethOccB (prevAtP prev cs i) (cs.drop i) then some ((cs.drop i).take 42)
        else none) := by
  intro cs
  induction cs with
  | nil => intro prev; simp [specScanAux]
  | cons c cs ih =>
    intro prev
    have hfun : (fun i =>
        if ethOccB (prevAtP prev (c :: cs) (Nat.succ i)) ((c :: cs).drop (Nat.succ i))
        then some ((((c :: cs).drop (Nat.succ i))).take 42) else none)
        = (fun i => if ethOccB (prevAtP (some c) cs i) (cs.drop i)
            then some ((cs.drop i).take 42) else none) := by
      funext i
      have hprev : prevAtP prev (c :: cs) (Nat.succ i) = prevAtP (some c) cs i := by
        unfold prevAtP
        cases i with
        | zero => rfl
        | succ j => rfl
      rw [hprev, show (c :: cs).drop (Nat.succ i) = cs.drop i from rfl]
    rw [show (c :: cs).length = cs.length + 1 from rfl, List.range_succ_eq_map,
      List.filterMap_cons, List.filterMap_map]
    show (if ethOccB prev (c :: cs) then [(c :: cs).take 42] else [])
        ++ specScanAux (some c) cs = _
    rw [ih (some c)]
    by_cases hocc : ethOccB prev (c :: cs) = true
    · rw [if_pos hocc,
        show (if ethOccB (prevAtP prev (c :: cs) 0) ((c :: cs).drop 0)
            then some (((c :: cs).drop 0).take 42) else none)
          = some ((c :: cs).take 42) from by
          rw [show prevAtP prev (c :: cs) 0 = prev from rfl,
            show (c :: cs).drop 0 = c :: cs from rfl, if_pos hocc]]
      rw [List.singleton_append]
      congr 1
      exact List.filterMap_congr (fun i _ => (congrFun hfun i).symm)
    · have hocc' : ethOccB prev (c :: cs) = false := by
        cases hv : ethOccB prev (c :: cs) with
        | false => rfl
        | true => exact absurd hv hocc
      rw [hocc', if_neg (by simp),
        show (if ethOccB (prevAtP prev (c :: cs) 0) ((c :: cs).drop 0)
            then some (((c :: cs).drop 0).take 42) else none) = none from by
          rw [show prevAtP prev (c :: cs) 0 = prev from rfl,
            show (c :: cs).drop 0 = c :: cs from rfl, hocc', if_neg (by simp)]]
      rw [List.nil_append]
      exact List.filterMap_congr (fun i _ => (congrFun hfun i).symm)

/-- C4 counterexample: a text consisting of `0X` followed by 40 hex digits is
not matched by `ethRegex` (the regex has no `i` flag, so the literal prefix
must be lowercase `0x`), while the same text with lowercase `0x` is matched;
the claim that a `0X` prefix is matched is false. -/
theorem claimC4_upperX_counterexample :
    ethMatches ('0' :: 'X' :: List.replicate 40 'a') = [] ∧
    ethMatches ('0' :: 'x' :: List.replicate 40 'a')
      = [('0' :: 'x' :: List.replicate 40 'a')] := by
  constructor
  · decide
  · decide

/-- C4 as amended: the extractor output is exactly the list of word-boundary
delimited substrings consisting of a literal lowercase `0x` followed by
exactly 40 hexadecimal digits (only the digits are case-insensitive), taken
in positional order with the JS global-match non-overlap rule. -/
theorem claimC4_extractor_exact (s : Str) : ethMatches s = ethOccurrences s := by
  unfold ethMatches ethOccurrences
  rw [ethScan_eq_specScanAux s.length s none (le_refl _), specScanAux_positions]

/-! ### C6: name-cache lifecycle over whole-system traces -/

theorem nameVal_some_chat (store : Store) (cid : Int) (n : Str) (v : Option Str)
    (h : nameVal store cid n = some v) :
    ∃ st, alistLookup store cid = some st ∧ alistLookup st.ensMap n = some v := by
  unfold nameVal at h
  cases hl : alistLookup store cid with
  | none => rw [hl] at h; exact absurd h (by simp)
  | some st => rw [hl] at h; exact ⟨st, rfl, h⟩

theorem nameVal_eq_of_lookup (store : Store) (cid : Int) (st : ChatState) (n : Str)
    (h : alistLookup store cid = some st) :
    nameVal store cid n = alistLookup st.ensMap n := by
  unfold nameVal
  rw [h]

theorem nameVal_eq_of_lookup_none (store : Store) (cid : Int) (n : Str)
    (h : alistLookup store cid = none) :
    nameVal store cid n = none := by
  unfold nameVal
  rw [h]

theorem lookup_ensureChat_ne (store : Store) (c cid : Int) (h : cid ≠ c) :
    alistLookup (ensureChat store c) cid = alistLookup store cid := by
  unfold ensureChat
  by_cases hs : (alistLookup store c).isSome
  · simp [hs]
  · simp only [hs, Bool.false_eq_true, if_false]
    cases h1 : alistLookup store cid with
    | some v => exact alistLookup_append_some _ _ _ _ h1
    | none =>
      rw [alistLookup_append_none _ _ _ h1]
      have hnc : ¬(c = cid) := fun e => h e.symm
      simp [alistLookup, hnc, h1]

theorem nameVal_ensure (store : Store) (c cid : Int) (n : Str) (v : Option Str)
    (h : nameVal store cid n = some v) :
    nameVal (ensureChat store c) cid n = some v := by
  obtain ⟨st, hl, hv⟩ := nameVal_some_chat store cid n v h
  rw [nameVal_eq_of_lookup _ _ st _ (lookup_ensureChat_of_some _ _ _ _ hl)]
  exact hv

theorem nameVal_ensure_rev (store : Store) (c cid : Int) (n : Str) (v : Option Str)
    (h : nameVal (ensureChat store c) cid n = some v) :
    nameVal store cid n = some v := by
  obtain ⟨st, hl, hv⟩ := nameVal_some_chat _ cid n v h
  rcases lookup_ensureChat_rev store c cid st hl with h1 | ⟨_, _, hnew⟩
  · rw [nameVal_eq_of_lookup _ _ st _ h1]
    exact hv
  · subst hnew
    exact absurd hv (by simp [newChat, alistLookup])

/-- The combined effect of the ENS loop of `handleText` on the cache and the
launched-task list: existing entries survive with their value, the newly
launched names are distinct, were absent before, end up cached as `null`, and
are the only additions. -/
theorem ensFold_bundle (l : List Str) :
    ∀ (m : List (Str × Option Str)) (f0 : List Str),
      (∀ n v, alistLookup m n = some v → alistLookup (l.foldl ensStep (m, f0)).1 n = some v) ∧
      (∃ δ, (l.foldl ensStep (m, f0)).2 = f0 ++ δ ∧ δ.Nodup ∧
        (∀ n ∈ δ, alistLookup m n = none ∧
          alistLookup (l.foldl ensStep (m, f0)).1 n = some none) ∧
        (∀ n, alistLookup (l.foldl ensStep (m, f0)).1 n ≠ none →
          alistLookup m n ≠ none ∨ n ∈ δ)) := by
  induction l with
  | nil =>
    intro m f0
    refine ⟨fun n v hv => hv, [], (List.append_nil f0).symm, List.nodup_nil,
      fun n hn => absurd hn (List.not_mem_nil n), fun n hn => Or.inl hn⟩
  | cons raw l ih =>
    intro m f0
    rw [List.foldl_cons]
    by_cases hk : (alistLookup m (lowerStr raw)).isSome
    · have hstep : ensStep (m, f0) raw = (m, f0) := by
        unfold ensStep
        simp only [hk, if_true]
      rw [hstep]
      exact ih m f0
    · have hkn : alistLookup m (lowerStr raw) = none := by
        cases hv : alistLookup m (lowerStr raw) with
        | none => rfl
        | some v => rw [hv] at hk; exact absurd rfl hk
      have hstep : ensStep (m, f0) raw
          = (m ++ [(lowerStr raw, none)], f0 ++ [lowerStr raw]) := by
        unfold ensStep
        simp only [hk, Bool.false_eq_true, if_false]
      rw [hstep]
      obtain ⟨ihP1, δ', hδeq, hδnd, hδmem, hδlast⟩ := ih (m ++ [(lowerStr raw, none)]) (f0 ++ [lowerStr raw])
      have hmidk : alistLookup (m ++ [(lowerStr raw, none)]) (lowerStr raw) = some none := by
        rw [alistLookup_append_none _ _ _ hkn]
        simp [alistLookup]
      constructor
      · intro n v hv
        exact ihP1 n v (alistLookup_append_some _ _ _ _ hv)
      · refine ⟨lowerStr raw :: δ', ?_, ?_, ?_, ?_⟩
        · rw [hδeq, List.append_assoc, List.singleton_append]
        · rw [List.nodup_cons]
          refine ⟨fun hkδ => ?_, hδnd⟩
          have := (hδmem _ hkδ).1
          rw [hmidk] at this
          exact absurd this (by simp)
        · intro n hn
          rcases List.mem_cons.mp hn with rfl | hmem
          · exact ⟨hkn, ihP1 _ none hmidk⟩
          · obtain ⟨hmid, hfin⟩ := hδmem n hmem
            exact ⟨alistLookup_append_none_of_none _ _ _ hmid, hfin⟩
        · intro n hn
          rcases hδlast n hn with hmid | hδ'
          · cases hmn : alistLookup m n with
            | some v => exact Or.inl (by intro hcon; exact Option.noConfusion hcon)
            | none =>
              rw [alistLookup_append_none _ _ _ hmn] at hmid
              by_cases hkeq : lowerStr raw = n
              · subst hkeq
                exact Or.inr (List.mem_cons_self _ _)
              · exact absurd (by simp [alistLookup, hkeq]) hmid
          · exact Or.inr (List.mem_cons_of_mem _ hδ')

/-- Unfolded form of `handleText` when the chat is not watching. -/
theorem handleText_not_watching (store : Store) (cid : Int) (text : Str)
    (h : ((alistLookup (ensureChat store cid) cid).getD newChat).watching = false) :
    handleText store cid text = (ensureChat store cid, []) := by
  simp only [handleText]
  simp [h]

/-- Unfolded form of `handleText` when the chat is watching. -/
theorem handleText_watching_eq (store : Store) (cid : Int) (text : Str)
    (h : ((alistLookup (ensureChat store cid) cid).getD newChat).watching = true) :
    handleText store cid text
      = (alistSet (ensureChat store cid) cid
          { (alistLookup (ensureChat store cid) cid).getD newChat with
            ethSet := (ethMatches text).foldl ethStep
              ((alistLookup (ensureChat store cid) cid).getD newChat).ethSet,
            ensMap := ((ensMatches text).foldl ensStep
              (((alistLookup (ensureChat store cid) cid).getD newChat).ensMap, [])).1 },
         ((ensMatches text).foldl ensStep
           (((alistLookup (ensureChat store cid) cid).getD newChat).ensMap, [])).2) := by
  simp only [handleText]
  rw [if_neg (by simp [h])]

theorem nameVal_alistSet_ne (store : Store) (cid c : Int) (st : ChatState) (n : Str)
    (h : c ≠ cid) :
    nameVal (alistSet store cid st) c n = nameVal store c n := by
  unfold nameVal
  rw [alistLookup_alistSet_ne store cid c st h]

/-- `handleText` preserves every cached name with its exact value (it only ever
appends fresh `null` entries, for the target chat). -/
theorem handleText_nameVal_pres (store : Store) (cid c : Int) (t n : Str) (v : Option Str)
    (h : nameVal store c n = some v) :
    nameVal (handleText store cid t).1 c n = some v := by
  cases hw : ((alistLookup (ensureChat store cid) cid).getD newChat).watching with
  | false =>
    rw [handleText_not_watching store cid t hw]
    exact nameVal_ensure store cid c n v h
  | true =>
    rw [handleText_watching_eq store cid t hw]
    by_cases hc : c = cid
    · subst hc
      obtain ⟨st0, hlook, hv⟩ := nameVal_some_chat store c n v h
      have he : ensureChat store c = store := ensureChat_of_isSome store c (by rw [hlook]; rfl)
      rw [he, hlook]
      simp only [Option.getD_some]
      rw [nameVal_eq_of_lookup _ _ _ _ (alistLookup_alistSet_self store c _)]
      exact (ensFold_bundle (ensMatches t) st0.ensMap []).1 n v hv
    · rw [nameVal_alistSet_ne _ _ _ _ _ hc]
      exact nameVal_ensure store cid c n v h

/-- The auto-watch handler (src/bot.js lines 408-420) only flips the watching
flag: every cached name keeps its exact value. -/
theorem nameVal_setWatching (store : Store) (cid c : Int) (n : Str) (v : Option Str)
    (h : nameVal store c n = some v) :
    nameVal (alistSet (ensureChat store cid) cid
      { (alistLookup (ensureChat store cid) cid).getD newChat with watching := true }) c n
      = some v := by
  by_cases hc : c = cid
  · subst hc
    obtain ⟨st0, hlook, hv⟩ := nameVal_some_chat store c n v h
    have he : ensureChat store c = store := ensureChat_of_isSome store c (by rw [hlook]; rfl)
    rw [he, hlook]
    simp only [Option.getD_some]
    rw [nameVal_eq_of_lookup _ _ _ _ (alistLookup_alistSet_self store c _)]
    exact hv
  · rw [nameVal_alistSet_ne _ _ _ _ _ hc]
    exact nameVal_ensure store cid c n v h

/-- The resolution-completion write touches only the completed `(chat, name)`
pair: any other cached entry keeps its exact value, and the completed pair
either keeps its value or moves to a non-null resolved address. -/
theorem completeStore_nameVal (store : Store) (cid c : Int) (n0 n : Str)
    (r : Option Str) (v : Option Str)
    (h : nameVal store c n = some v) :
    nameVal (completeStore store cid n0 r) c n = some v ∨
      (c = cid ∧ n = n0 ∧ ∃ a, nameVal (completeStore store cid n0 r) c n = some (some a)) := by
  cases r with
  | none => exact Or.inl h
  | some a =>
    by_cases ha : a = []
    · have hred : completeStore store cid n0 (some a) = store := by
        simp only [completeStore]
        rw [if_pos ha]
      rw [hred]
      exact Or.inl h
    · cases hst : alistLookup store cid with
      | none =>
        have hred : completeStore store cid n0 (some a) = store := by
          simp only [completeStore]
          rw [if_neg ha, hst]
        rw [hred]
        exact Or.inl h
      | some st =>
        have hred : completeStore store cid n0 (some a)
            = alistSet store cid { st with ensMap := alistSet st.ensMap n0 (some a) } := by
          simp only [completeStore]
          rw [if_neg ha, hst]
        rw [hred]
        by_cases hc : c = cid
        · subst hc
          have hsv : alistLookup st.ensMap n = some v := by
            have h2 := h
            rw [nameVal_eq_of_lookup store c st n hst] at h2
            exact h2
          rw [nameVal_eq_of_lookup _ _ _ _ (alistLookup_alistSet_self store c _)]
          by_cases hn : n = n0
          · subst hn
            refine Or.inr ⟨rfl, rfl, a, ?_⟩
            show alistLookup (alistSet st.ensMap n (some a)) n = some (some a)
            rw [alistLookup_alistSet_self]
          · refine Or.inl ?_
            show alistLookup (alistSet st.ensMap n0 (some a)) n = some v
            rw [alistLookup_alistSet_ne st.ensMap n0 n (some a) hn]
            exact hsv
        · rw [nameVal_alistSet_ne store cid c _ n hc]
          exact Or.inl h

/-- `textEffect` never changes the value of a cached name. -/
theorem textEffect_mono (sys : Sys) (cid : Int) (t : Str) (d : Option Cmd)
    (c : Int) (n : Str) (v : Option Str)
    (h : nameVal sys.store c n = some v) :
    nameVal (textEffect sys cid t d).1.store c n = some v := by
  cases d with
  | none => exact handleText_nameVal_pres sys.store cid c t n v h
  | some cmd =>
    cases cmd with
    | help => exact h
    | whoami => exact h
    | status => exact nameVal_ensure sys.store cid c n v h
    | makelist => exact nameVal_ensure sys.store cid c n v h

/-- The fired list of `handleText` (used via `textEffect`): no duplicates,
every fired name was absent before and is cached as `null` afterwards. -/
theorem handleText_fired_bundle (store : Store) (cid : Int) (t : Str) :
    (handleText store cid t).2.Nodup ∧
    ∀ n ∈ (handleText store cid t).2,
      nameVal store cid n = none ∧ nameVal (handleText store cid t).1 cid n = some none := by
  cases hw : ((alistLookup (ensureChat store cid) cid).getD newChat).watching with
  | false =>
    rw [handleText_not_watching store cid t hw]
    exact ⟨List.nodup_nil, fun n hn => absurd hn (List.not_mem_nil n)⟩
  | true =>
    rw [handleText_watching_eq store cid t hw]
    obtain ⟨_, δ, hδeq, hδnd, hδmem, _⟩ :=
      ensFold_bundle (ensMatches t) ((alistLookup (ensureChat store cid) cid).getD newChat).ensMap []
    rw [List.nil_append] at hδeq
    constructor
    · rw [hδeq]
      exact hδnd
    · intro n hn
      rw [hδeq] at hn
      obtain ⟨hpre, hpost⟩ := hδmem n hn
      constructor
      · cases hlook : alistLookup store cid with
        | none => exact nameVal_eq_of_lookup_none store cid n hlook
        | some st0 =>
          have he : ensureChat store cid = store :=
            ensureChat_of_isSome store cid (by rw [hlook]; rfl)
          rw [nameVal_eq_of_lookup store cid st0 n hlook]
          rw [he, hlook] at hpre
          simpa using hpre
      · rw [nameVal_eq_of_lookup _ _ _ _ (alistLookup_alistSet_self _ _ _)]
        exact hpost

/-- The tasks launched by one `textEffect` are distinct, each was for a name
absent from its chat's cache beforehand, and each leaves its name cached as
`null` afterwards. -/
theorem textEffect_fired (sys : Sys) (cid : Int) (t : Str) (d : Option Cmd) :
    (textEffect sys cid t d).2.Nodup ∧
    ∀ p ∈ (textEffect sys cid t d).2,
      nameVal sys.store p.1 p.2 = none ∧
      nameVal (textEffect sys cid t d).1.store p.1 p.2 = some none := by
  cases d with
  | some cmd =>
    cases cmd <;> exact ⟨List.nodup_nil, fun p hp => absurd hp (List.not_mem_nil p)⟩
  | none =>
    obtain ⟨hfnd, hfmem⟩ := handleText_fired_bundle sys.store cid t
    constructor
    · show ((handleText sys.store cid t).2.map (fun n => (cid, n))).Nodup
      exact hfnd.map (fun a b hab => congrArg Prod.snd hab)
    · intro p hp
      have hp2 : p ∈ (handleText sys.store cid t).2.map (fun n => (cid, n)) := hp
      obtain ⟨n, hn, hpn⟩ := List.mem_map.mp hp2
      subst hpn
      exact hfmem n hn

theorem textEffect_inv (sys : Sys) (cid : Int) (t : Str) (d : Option Cmd)
    (hinv : SysInv sys) : SysInv (textEffect sys cid t d).1 := by
  obtain ⟨hnd, hpend⟩ := hinv
  cases d with
  | some cmd =>
    cases cmd with
    | help => exact ⟨hnd, hpend⟩
    | whoami => exact ⟨hnd, hpend⟩
    | status => exact ⟨hnd, fun p hp => nameVal_ensure _ cid p.1 p.2 none (hpend p hp)⟩
    | makelist => exact ⟨hnd, fun p hp => nameVal_ensure _ cid p.1 p.2 none (hpend p hp)⟩
  | none =>
    obtain ⟨hfnd, hfmem⟩ := handleText_fired_bundle sys.store cid t
    refine ⟨?_, ?_⟩
    · show (sys.pending ++ (handleText sys.store cid t).2.map (fun n => (cid, n))).Nodup
      rw [List.nodup_append]
      refine ⟨hnd, hfnd.map (fun a b hab => congrArg Prod.snd hab), ?_⟩
      intro p hp hpf
      obtain ⟨n, hn, hpn⟩ := List.mem_map.mp hpf
      subst hpn
      have h1 : nameVal sys.store cid n = some none := hpend _ hp
      have h2 := (hfmem n hn).1
      rw [h2] at h1
      exact Option.noConfusion h1
    · show ∀ p ∈ sys.pending ++ (handleText sys.store cid t).2.map (fun n => (cid, n)),
        nameVal (handleText sys.store cid t).1 p.1 p.2 = some none
      intro p hp
      rcases List.mem_append.mp hp with hp1 | hp2
      · exact handleText_nameVal_pres sys.store cid p.1 t p.2 none (hpend p hp1)
      · obtain ⟨n, hn, hpn⟩ := List.mem_map.mp hp2
        subst hpn
        exact (hfmem n hn).2

theorem stepSys_inv (sys : Sys) (e : Event) (hinv : SysInv sys) : SysInv (stepSys sys e) := by
  cases e with
  | msg cid t => exact textEffect_inv sys cid t (msgDispatch t) hinv
  | chanPost cid t => exact textEffect_inv sys cid t (channelDispatch t) hinv
  | autoWatch cid =>
    exact ⟨hinv.1, fun p hp => nameVal_setWatching sys.store cid p.1 p.2 none (hinv.2 p hp)⟩
  | complete cid n0 r =>
    by_cases hmem : (cid, n0) ∈ sys.pending
    · have hred : stepSys sys (.complete cid n0 r)
          = ⟨completeStore sys.store cid n0 r, sys.pending.erase (cid, n0)⟩ := by
        simp only [stepSys, stepFired]
        rw [if_pos hmem]
      rw [hred]
      refine ⟨hinv.1.erase (cid, n0), ?_⟩
      intro p hp
      obtain ⟨hne, hpmem⟩ := (List.Nodup.mem_erase_iff hinv.1).mp hp
      have h0 : nameVal sys.store p.1 p.2 = some none := hinv.2 p hpmem
      rcases completeStore_nameVal sys.store cid p.1 n0 p.2 r none h0 with h1 | ⟨hc, hn, a, ha⟩
      · exact h1
      · exact absurd (Prod.ext hc hn) hne
    · have hred : stepSys sys (.complete cid n0 r) = sys := by
        simp only [stepSys, stepFired]
        rw [if_neg hmem]
      rw [hred]
      exact hinv

/-- One step never removes a cached name; its value either stays put or (only
at a resolution completion of a pending task, hence with a `null` value) turns
into a non-null resolved address. -/
theorem stepSys_mono (sys : Sys) (e : Event) (c : Int) (n : Str) (v : Option Str)
    (hinv : SysInv sys) (h : nameVal sys.store c n = some v) :
    ∃ v', nameVal (stepSys sys e).store c n = some v' ∧
      (v' = v ∨ (v = none ∧ ∃ a, v' = some a)) := by
  cases e with
  | msg cid t => exact ⟨v, textEffect_mono sys cid t (msgDispatch t) c n v h, Or.inl rfl⟩
  | chanPost cid t =>
    exact ⟨v, textEffect_mono sys cid t (channelDispatch t) c n v h, Or.inl rfl⟩
  | autoWatch cid => exact ⟨v, nameVal_setWatching sys.store cid c n v h, Or.inl rfl⟩
  | complete cid n0 r =>
    by_cases hmem : (cid, n0) ∈ sys.pending
    · have hred : stepSys sys (.complete cid n0 r)
          = ⟨completeStore sys.store cid n0 r, sys.pending.erase (cid, n0)⟩ := by
        simp only [stepSys, stepFired]
        rw [if_pos hmem]
      rw [hred]
      rcases completeStore_nameVal sys.store cid c n0 n r v h with h1 | ⟨hc, hn, a, ha⟩
      · exact ⟨v, h1, Or.inl rfl⟩
      · subst hc
        subst hn
        have hv0 : nameVal sys.store c n = some none := hinv.2 (c, n) hmem
        rw [h] at hv0
        exact ⟨some a, ha, Or.inr ⟨Option.some_inj.mp hv0, a, rfl⟩⟩
    · have hred : stepSys sys (.complete cid n0 r) = sys := by
        simp only [stepSys, stepFired]
        rw [if_neg hmem]
      rw [hred]
      exact ⟨v, h, Or.inl rfl⟩

/-- The tasks fired in one step are distinct; each one's name was absent from
its chat's cache before the step and is cached as `null` after it. -/
theorem stepFired_bundle (sys : Sys) (e : Event) :
    (stepFired sys e).2.Nodup ∧
    ∀ p ∈ (stepFired sys e).2,
      nameVal sys.store p.1 p.2 = none ∧
      nameVal (stepSys sys e).store p.1 p.2 = some none := by
  cases e with
  | msg cid t => exact textEffect_fired sys cid t (msgDispatch t)
  | chanPost cid t => exact textEffect_fired sys cid t (channelDispatch t)
  | autoWatch cid => exact ⟨List.nodup_nil, fun p hp => absurd hp (List.not_mem_nil p)⟩
  | complete cid n0 r =>
    by_cases hmem : (cid, n0) ∈ sys.pending
    · have hred : (stepFired sys (.complete cid n0 r)).2 = [] := by
        simp only [stepFired]
        rw [if_pos hmem]
      rw [hred]
      exact ⟨List.nodup_nil, fun p hp => absurd hp (List.not_mem_nil p)⟩
    · have hred : (stepFired sys (.complete cid n0 r)).2 = [] := by
        simp only [stepFired]
        rw [if_neg hmem]
      rw [hred]
      exact ⟨List.nodup_nil, fun p hp => absurd hp (List.not_mem_nil p)⟩

theorem runSys_inv (sys : Sys) (es : List Event) (hinv : SysInv sys) :
    SysInv (runSys sys es) := by
  induction es generalizing sys with
  | nil => exact hinv
  | cons e es ih =>
    have hstep : runSys sys (e :: es) = runSys (stepSys sys e) es := rfl
    rw [hstep]
    exact ih (stepSys sys e) (stepSys_inv sys e hinv)

theorem valStep_trans (v v1 v2 : Option Str)
    (h1 : v1 = v ∨ (v = none ∧ ∃ a, v1 = some a))
    (h2 : v2 = v1 ∨ (v1 = none ∧ ∃ a, v2 = some a)) :
    v2 = v ∨ (v = none ∧ ∃ a, v2 = some a) := by
  rcases h1 with rfl | ⟨hv, a, ha⟩
  · exact h2
  · rcases h2 with rfl | ⟨hv1, b, hb⟩
    · exact Or.inr ⟨hv, a, ha⟩
    · exact Or.inr ⟨hv, b, hb⟩

theorem runSys_mono (sys : Sys) (es : List Event) (c : Int) (n : Str) (v : Option Str)
    (hinv : SysInv sys) (h : nameVal sys.store c n = some v) :
    ∃ v', nameVal (runSys sys es).store c n = some v' ∧
      (v' = v ∨ (v = none ∧ ∃ a, v' = some a)) := by
  induction es generalizing sys v with
  | nil => exact ⟨v, h, Or.inl rfl⟩
  | cons e es ih =>
    have hstep : runSys sys (e :: es) = runSys (stepSys sys e) es := rfl
    rw [hstep]
    obtain ⟨v1, hv1, hr1⟩ := stepSys_mono sys e c n v hinv h
    obtain ⟨v2, hv2, hr2⟩ := ih (stepSys sys e) v1 (stepSys_inv sys e hinv) hv1
    exact ⟨v2, hv2, valStep_trans v v1 v2 hr1 hr2⟩

/-- Once a name is cached for a chat, no later event fires a resolution task
for that pair again. -/
theorem firesOf_zero_of_present (sys : Sys) (es : List Event) (c : Int) (n : Str)
    (v : Option Str) (hinv : SysInv sys) (h : nameVal sys.store c n = some v) :
    (firesOf sys es).count (c, n) = 0 := by
  induction es generalizing sys v with
  | nil => simp [firesOf]
  | cons e es ih =>
    have hstep : firesOf sys (e :: es) = (stepFired sys e).2 ++ firesOf (stepSys sys e) es := rfl
    rw [hstep, List.count_append]
    have h1 : (stepFired sys e).2.count (c, n) = 0 := by
      rw [List.count_eq_zero]
      intro hmem
      have h2 : nameVal sys.store c n = none := ((stepFired_bundle sys e).2 (c, n) hmem).1
      rw [h] at h2
      exact Option.noConfusion h2
    obtain ⟨v', hv', _⟩ := stepSys_mono sys e c n v hinv h
    rw [h1, ih (stepSys sys e) v' (stepSys_inv sys e hinv) hv']

theorem count_le_one_of_nodup {α : Type} [BEq α] [LawfulBEq α] (l : List α)
    (h : l.Nodup) (a : α) : l.count a ≤ 1 := by
  induction l with
  | nil => simp
  | cons x xs ih =>
    rcases List.nodup_cons.mp h with ⟨hx, hxs⟩
    rw [List.count_cons]
    by_cases hax : a = x
    · subst hax
      rw [List.count_eq_zero.mpr hx]
      simp
    · have hbe : (x == a) = false := beq_false_of_ne (fun e => hax e.symm)
      rw [hbe]
      simpa using ih hxs

/-- Over any trace from an invariant-respecting state, at most one resolution
task is ever fired per `(chat, name)` pair. -/
theorem firesOf_count_le_one (sys : Sys) (es : List Event) (c : Int) (n : Str)
    (hinv : SysInv sys) :
    (firesOf sys es).count (c, n) ≤ 1 := by
  induction es generalizing sys with
  | nil => simp [firesOf]
  | cons e es ih =>
    have hstep : firesOf sys (e :: es) = (stepFired sys e).2 ++ firesOf (stepSys sys e) es := rfl
    rw [hstep, List.count_append]
    by_cases hmem : (c, n) ∈ (stepFired sys e).2
    · have h1 : (stepFired sys e).2.count (c, n) ≤ 1 :=
        count_le_one_of_nodup _ (stepFired_bundle sys e).1 (c, n)
      have h2 : nameVal (stepSys sys e).store c n = some none :=
        ((stepFired_bundle sys e).2 (c, n) hmem).2
      have h3 : (firesOf (stepSys sys e) es).count (c, n) = 0 :=
        firesOf_zero_of_present (stepSys sys e) es c n none (stepSys_inv sys e hinv) h2
      omega
    · have h1 : (stepFired sys e).2.count (c, n) = 0 := List.count_eq_zero.mpr hmem
      have h2 := ih (stepSys sys e) (stepSys_inv sys e hinv)
      omega

/-- C6: over any whole-system trace from startup, once a name is present in a
chat's name mapping it stays present under any further events; its stored
value either stays exactly equal or moves from `null` to some non-null
resolved address (never back, and never from one non-null value to another);
and over the entire trace at most one resolution task is ever launched for
that `(chat, name)` pair. -/
theorem claimC6_name_lifecycle (es1 es2 : List Event) (chatId : Int) (n : Str)
    (v : Option Str)
    (h : nameVal (runSys sysInit es1).store chatId n = some v) :
    (∃ v', nameVal (runSys sysInit (es1 ++ es2)).store chatId n = some v' ∧
      (v' = v ∨ (v = none ∧ ∃ a, v' = some a))) ∧
    (firesOf sysInit (es1 ++ es2)).count (chatId, n) ≤ 1 := by
  have hinv0 : SysInv sysInit := ⟨List.nodup_nil, fun p hp => absurd hp (List.not_mem_nil p)⟩
  constructor
  · have happ : runSys sysInit (es1 ++ es2) = runSys (runSys sysInit es1) es2 := by
      simp [runSys, List.foldl_append]
    rw [happ]
    exact runSys_mono (runSys sysInit es1) es2 chatId n v (runSys_inv sysInit es1 hinv0) h
  · exact firesOf_count_le_one sysInit (es1 ++ es2) chatId n hinv0

/-- Witness for C6: after auto-watch of chat 0 and one message containing the
name `a.eth`, the name is cached as `null`; the theorem applies with the empty
continuation. -/
theorem claimC6_name_lifecycle_witness :
    (∃ v', nameVal (runSys sysInit
        ([Event.autoWatch 0, Event.msg 0 "a.eth".data] ++ [])).store 0 "a.eth".data
          = some v' ∧
      (v' = (none : Option Str) ∨ ((none : Option Str) = none ∧ ∃ a, v' = some a))) ∧
    (firesOf sysInit
        ([Event.autoWatch 0, Event.msg 0 "a.eth".data] ++ [])).count (0, "a.eth".data) ≤ 1 :=
  claimC6_name_lifecycle [Event.autoWatch 0, Event.msg 0 "a.eth".data] [] 0
    "a.eth".data none (by decide)

end TgScraper
